import Mathlib

/-!
Verification development for the hypomnemata note engine.

Text is embedded as `List Char` (Python `str`, character offsets).  Each
definition is a direct translation of the corresponding Python function in
`src/hypomnemata`; the doc comment of each definition names its source.
Library calls (`unicodedata`, `yaml`, `sqlite3`) are modelled on the fragment
the development exercises, as noted on each definition.
-/

namespace Hypo

/-- Python strings as lists of characters (offsets are character offsets). -/
abbrev Str := List Char

/-- Shorthand turning a Lean string literal into the `Str` embedding. -/
def str (s : String) : Str := s.toList

/-- Python whitespace (the `\s` class of the `re` module and `str.strip`) on
the ASCII fragment used here: space, tab, newline, CR, VT, FF. -/
def pyIsSpace (c : Char) : Bool :=
  c == ' ' || c == '\t' || c == '\n' || c == '\r' || c == '\x0b' || c == '\x0c'

/-- The `\w` character class of Python `re` on the ASCII fragment:
alphanumerics and underscore. -/
def pyIsWord (c : Char) : Bool := c.isAlphanum || c == '_'

/-- Python `str.startswith`. -/
def pyStartsWith (pat s : Str) : Bool :=
  match pat, s with
  | [], _ => true
  | _ :: _, [] => false
  | p :: ps, c :: cs => p == c && pyStartsWith ps cs

/-- Python `str.endswith`. -/
def pyEndsWith (pat s : Str) : Bool := pyStartsWith pat.reverse s.reverse

/-- Python `str.strip()` (strip whitespace from both ends). -/
def pyStrip (s : Str) : Str :=
  ((s.dropWhile pyIsSpace).reverse.dropWhile pyIsSpace).reverse

/-- Python `str.rstrip('\n\r')` as used on parsed lines. -/
def rstripNlCr (s : Str) : Str :=
  (s.reverse.dropWhile (fun c => c == '\n' || c == '\r')).reverse

/-- Accumulator for `pySplitWs`: `cur` holds the reversed current word. -/
def pySplitWsAux (cur : Str) : Str → List Str
  | [] => if cur = [] then [] else [cur.reverse]
  | c :: rest =>
    if pyIsSpace c then
      if cur = [] then pySplitWsAux [] rest else cur.reverse :: pySplitWsAux [] rest
    else pySplitWsAux (c :: cur) rest

/-- Python `str.split()` (split on whitespace runs, dropping empty parts). -/
def pySplitWs (s : Str) : List Str := pySplitWsAux [] s

/-- Python `sep.join(parts)`. -/
def joinWith (sep : Str) : List Str → Str
  | [] => []
  | [p] => p
  | p :: ps => p ++ sep ++ joinWith sep ps

/-- Python `str.split(sep)` for a single-character separator, keeping empty
parts (`"".split(sep) == [""]`). -/
def pySplitAllChar (sep : Char) : Str → List Str
  | [] => [[]]
  | c :: rest =>
    match pySplitAllChar sep rest with
    | [] => [[]]
    | h :: t => if c = sep then [] :: h :: t else (c :: h) :: t

/-- Splits `s` at the first occurrence of `pat` (Python `s.split(pat, 1)` when
`pat` occurs, and the search step of lazy regex groups): the text before the
first occurrence and the text after it. -/
def splitFirst (pat : Str) : Str → Option (Str × Str)
  | [] => none
  | c :: rest =>
    if pyStartsWith pat (c :: rest) then some ([], (c :: rest).drop pat.length)
    else (splitFirst pat rest).map (fun p => (c :: p.1, p.2))

/-- Python `pat in s` substring test. -/
def hasSubstr (pat s : Str) : Bool := (splitFirst pat s).isSome

/-! ## Slug and identity (`core/utils.py`) -/

/-- `str.lower` via `Char.toLower`: faithful on the ASCII letters that the
development feeds through `slugify`. -/
def pyLower (c : Char) : Char := c.toLower

/-- The dash replacement of `slugify`: en dash, em dash and minus map to an
ASCII hyphen (`text.replace` chain in `core/utils.py`). -/
def dashFix (c : Char) : Char :=
  if c = '–' ∨ c = '—' ∨ c = '−' then '-' else c

/-- `re.sub(r'\s+', '-', text)`: whitespace runs become a single hyphen.
The boolean records whether the previous character was whitespace. -/
def wsToDashAux (prevWs : Bool) : Str → Str
  | [] => []
  | c :: rest =>
    if pyIsSpace c then
      if prevWs then wsToDashAux true rest else '-' :: wsToDashAux true rest
    else c :: wsToDashAux false rest

/-- `re.sub(r'-+', '-', text)`: hyphen runs collapse to a single hyphen. -/
def dashCollapseAux (prevDash : Bool) : Str → Str
  | [] => []
  | c :: rest =>
    if c = '-' then
      if prevDash then dashCollapseAux true rest else '-' :: dashCollapseAux true rest
    else c :: dashCollapseAux false rest

/-- `text.strip('-')`. -/
def stripDash (s : Str) : Str :=
  ((s.dropWhile (· = '-')).reverse.dropWhile (· = '-')).reverse

/-- `slugify` from `core/utils.py`: lowercase, map dash variants to `-`,
NFKD-normalize dropping combining marks (the identity on the ASCII fragment
used by this development), keep only `\w`, whitespace and `-`, turn
whitespace runs into single hyphens, collapse hyphen runs, strip hyphens. -/
def slugify (text : Str) : Str :=
  let t1 := (text.map pyLower).map dashFix
  let t2 := t1.filter (fun c => pyIsWord c || pyIsSpace c || c == '-')
  stripDash (dashCollapseAux false (wsToDashAux false t2))

/-! ## Data model (`core/model.py`)

`Anchor`, `BlockLabel`, `Range`, `LinkTarget`, `Link`, `Transclusion`,
`NoteBody` and `Note` are translated field for field.  `Block` is the record
that `MarkdownParser.parse` constructs and that `core/slicer.py` and
`adapters/sqlite_index.py` read: it carries `heading_level` and
`heading_slug`.  The `Block` dataclass of `core/model.py` omits those two
fields, so in Python every construction of a heading block raises
`TypeError`; that discrepancy is recorded by the claims about the parser and
the embedding below follows the fields the rest of the code uses. -/

/-- `Anchor` (`kind` is the literal `"block"` or `"heading"`). -/
structure Anchor where
  kind : String
  value : Str
deriving DecidableEq, Repr

/-- `BlockLabel`. -/
structure BlockLabel where
  name : Str
deriving DecidableEq, Repr

/-- `Range` (half-open character offsets; the Python field `end` is named
`stop` because `end` is reserved in Lean). -/
structure Range where
  start : Nat
  stop : Nat
deriving DecidableEq, Repr

/-- `Block` as constructed by the parser (see the section comment above). -/
structure Block where
  kind : String
  range : Range
  label : Option BlockLabel := none
  heading_text : Option Str := none
  heading_level : Option Nat := none
  heading_slug : Option Str := none
  fence_info : Option Str := none
deriving DecidableEq, Repr

/-- `LinkTarget`. -/
structure LinkTarget where
  id : Str
  anchor : Option Anchor := none
  rel : Option Str := none
  title_text : Option Str := none
deriving DecidableEq, Repr

/-- `Link`. -/
structure Link where
  source : Str
  target : LinkTarget
  range : Option Range := none
deriving DecidableEq, Repr

/-- `Transclusion`. -/
structure Transclusion where
  target : LinkTarget
  range : Option Range := none
deriving DecidableEq, Repr

/-- `NoteBody`. -/
structure NoteBody where
  raw : Str
  blocks : List Block := []
  links : List Link := []
  transclusions : List Transclusion := []
deriving DecidableEq, Repr

/-- `Note` (`meta` is the `MetaBag` content, an ordered mapping; values are
modelled on the plain string fragment this development uses). -/
structure Note where
  id : Str
  meta : List (Str × Str) := []
  body : NoteBody
deriving DecidableEq, Repr

/-! ## Markdown parser (`adapters/markdown_parser.py`) -/

/-- Python `str.splitlines(keepends=True)` on the `\n` / `\r` / `\r\n`
fragment; `cur` accumulates the reversed current line. -/
def splitlinesKeepAux (cur : Str) : Str → List Str
  | [] => if cur = [] then [] else [cur.reverse]
  | '\r' :: '\n' :: rest => (cur.reverse ++ ['\r', '\n']) :: splitlinesKeepAux [] rest
  | '\n' :: rest => (cur.reverse ++ ['\n']) :: splitlinesKeepAux [] rest
  | '\r' :: rest => (cur.reverse ++ ['\r']) :: splitlinesKeepAux [] rest
  | c :: rest => splitlinesKeepAux (c :: cur) rest

/-- Python `str.splitlines(keepends=True)`. -/
def splitlinesKeep (s : Str) : List Str := splitlinesKeepAux [] s

/-- Python `str.splitlines()` (no keepends), derived from the keepends form
by stripping the line terminators. -/
def splitlinesNoKeep (s : Str) : List Str := (splitlinesKeep s).map rstripNlCr

/-- `HEADING_RE = ^(#{1,6})\s+(.+)$` applied to a line without terminators:
returns the heading level and the text of group 2 (before `strip`).  The
regex backtracking resolves to: all leading hashes (1 to 6 of them), then a
nonempty whitespace run; group 2 is the rest if nonempty, else the last
whitespace character when the run has length at least 2. -/
def headingMatch (l : Str) : Option (Nat × Str) :=
  let h := (l.takeWhile (· = '#')).length
  if 1 ≤ h ∧ h ≤ 6 then
    let rest := l.drop h
    let w := rest.takeWhile pyIsSpace
    let t := rest.dropWhile pyIsSpace
    if w = [] then none
    else if t ≠ [] then some (h, t)
    else if 2 ≤ w.length then some (h, w.drop (w.length - 1))
    else none
  else none

/-- Label extraction for headings (`markdown_parser.py` lines 101-109):
if the last whitespace-delimited word starts with `^` and is longer than one
character it becomes the label and the remaining words joined by a space are
slugified. -/
def headingLabelSplit (heading_text : Str) : Option BlockLabel × Str :=
  let words := pySplitWs heading_text
  match words.getLast? with
  | some lastWord =>
    if pyStartsWith (str "^") lastWord ∧ 1 < lastWord.length then
      (some ⟨lastWord.drop 1⟩, joinWith (str " ") words.dropLast)
    else (none, heading_text)
  | none => (none, heading_text)

/-- Label extraction for fences (`markdown_parser.py` lines 74-81): the first
whitespace-delimited part of `fence_info` that starts with `^` and is longer
than one character, checked only when `^` occurs in `fence_info`. -/
def fenceLabel (fence_info : Str) : Option BlockLabel :=
  if hasSubstr (str "^") fence_info then
    match (pySplitWs fence_info).find?
        (fun p => pyStartsWith (str "^") p && 1 < p.length) with
    | some p => some ⟨p.drop 1⟩
    | none => none
  else none

/-- Loop state of `MarkdownParser.parse`. -/
structure ParseSt where
  offset : Nat := 0
  in_fence : Bool := false
  fence_start : Nat := 0
  fence_info : Str := []
  blocks : List Block := []

/-- One iteration of the line loop of `MarkdownParser.parse`
(`markdown_parser.py` lines 58-124). -/
def parseLine (st : ParseSt) (ln : Str) : ParseSt :=
  let ls := rstripNlCr ln
  if pyStartsWith (str "```") ls then
    if ¬ st.in_fence then
      { st with
        in_fence := true
        fence_start := st.offset
        fence_info := pyStrip (ls.drop 3)
        offset := st.offset + ln.length }
    else
      let fence_end := st.offset + ln.length
      { st with
        in_fence := false
        blocks := st.blocks ++
          [{ kind := "fence"
             range := ⟨st.fence_start, fence_end⟩
             fence_info := some st.fence_info
             label := fenceLabel st.fence_info }]
        fence_info := []
        offset := st.offset + ln.length }
  else if ¬ st.in_fence then
    match headingMatch ls with
    | some (level, g2) =>
      let heading_text := pyStrip g2
      let (label, slugSrc) := headingLabelSplit heading_text
      let slug := if slugSrc ≠ [] then slugify slugSrc else []
      { st with
        blocks := st.blocks ++
          [{ kind := "heading"
             range := ⟨st.offset, st.offset + ln.length⟩
             heading_text := some heading_text
             heading_level := some level
             heading_slug := some slug
             label := label }]
        offset := st.offset + ln.length }
    | none => { st with offset := st.offset + ln.length }
  else { st with offset := st.offset + ln.length }

/-- A regex match of the link or transclusion scan: the inner group, the
match start and the match end. -/
structure MRes where
  inner : Str
  mstart : Nat
  mend : Nat
deriving DecidableEq, Repr

/-- `LINK_RE.finditer` (`\[\[(.*?)\]\]`): left-to-right non-overlapping scan.
The state is `none` outside a candidate match and `some (openPos, accRev)`
after an opening `[[`, accumulating the lazy inner group reversed; the first
`]]` closes it.  `fuel` bounds the number of steps; each step consumes at
least one character, so any fuel of at least the string length is exact. -/
def scanLF : Nat → Str → Nat → Option (Nat × Str) → List MRes
  | 0, _, _, _ => []
  | _, [], _, _ => []
  | fuel + 1, c :: rest, pos, none =>
    if c = '[' ∧ rest.head? = some '[' then scanLF fuel rest.tail (pos + 2) (some (pos, []))
    else scanLF fuel rest (pos + 1) none
  | fuel + 1, c :: rest, pos, some (p, acc) =>
    if c = ']' ∧ rest.head? = some ']' then
      ⟨acc.reverse, p, pos + 2⟩ :: scanLF fuel rest.tail (pos + 2) none
    else scanLF fuel rest (pos + 1) (some (p, c :: acc))

/-- `TRANS_RE.finditer` (`!\[\[(.*?)\]\]`), same scan shape as `scanLF` with
a three-character opening `![[`. -/
def scanTF : Nat → Str → Nat → Option (Nat × Str) → List MRes
  | 0, _, _, _ => []
  | _, [], _, _ => []
  | fuel + 1, c :: rest, pos, none =>
    if c = '!' ∧ rest.head? = some '[' ∧ rest.tail.head? = some '[' then
      scanTF fuel rest.tail.tail (pos + 3) (some (pos, []))
    else scanTF fuel rest (pos + 1) none
  | fuel + 1, c :: rest, pos, some (p, acc) =>
    if c = ']' ∧ rest.head? = some ']' then
      ⟨acc.reverse, p, pos + 2⟩ :: scanTF fuel rest.tail (pos + 2) none
    else scanTF fuel rest (pos + 1) (some (p, c :: acc))

/-- All matches of `LINK_RE` over the body. -/
def linkMatches (text : Str) : List MRes := scanLF text.length text 0 none

/-- All matches of `TRANS_RE` over the body. -/
def transMatches (text : Str) : List MRes := scanTF text.length text 0 none

/-- `_parse_target` (`markdown_parser.py` lines 22-44).  Note that the
display title of `id|Title` and the `rel:` head are split off and dropped:
`title_text` and `rel` are never populated. -/
def parseTarget (spec : Str) : LinkTarget :=
  let parts := pySplitAllChar '|' spec
  let core :=
    if parts.length = 2 then parts.headI
    else if parts.length = 3 ∧ pyStartsWith (str "rel:") parts.headI then parts.get! 1
    else spec
  match splitFirst (str "#^") core with
  | some (id_, label) => { id := pyStrip id_, anchor := some ⟨"block", pyStrip label⟩ }
  | none =>
    match splitFirst (str "#") core with
    | some (id_, slug) => { id := pyStrip id_, anchor := some ⟨"heading", pyStrip slug⟩ }
    | none => { id := pyStrip core }

/-- `MarkdownParser.parse` (`markdown_parser.py` lines 48-140): the line loop
producing blocks, then the link scan, then the transclusion scan. -/
def parse (text : Str) (id : Str) : NoteBody :=
  let st := (splitlinesKeep text).foldl parseLine {}
  { raw := text
    blocks := st.blocks
    links := (linkMatches text).map
      (fun m => { source := id, target := parseTarget m.inner, range := some ⟨m.mstart, m.mend⟩ })
    transclusions := (transMatches text).map
      (fun m => { target := parseTarget m.inner, range := some ⟨m.mstart, m.mend⟩ }) }

/-! ## Slicer (`core/slicer.py`) -/

/-- `find_label`: first block whose label has the given name. -/
def find_label (note : Note) (label : Str) : Option Block :=
  note.body.blocks.find? (fun b =>
    match b.label with
    | some l => l.name = label
    | none => false)

/-- `find_heading_by_slug`: first heading block with the given slug. -/
def find_heading_by_slug (note : Note) (slug : Str) : Option Block :=
  note.body.blocks.find? (fun b => b.kind = "heading" && b.heading_slug = some slug)

/-- The block loop of `slice_heading` (`core/slicer.py` lines 36-45):
once the given heading block has been passed, the first heading block of
level at most `level` ends the slice at its start. -/
def sliceHeadingLoop (hb : Block) (level : Nat) : Bool → List Block → Option Nat
  | _, [] => none
  | found, b :: rest =>
    if b = hb then sliceHeadingLoop hb level true rest
    else if found ∧ b.kind = "heading" then
      match b.heading_level with
      | some l => if l ≤ level then some b.range.start else sliceHeadingLoop hb level found rest
      | none => sliceHeadingLoop hb level found rest
    else sliceHeadingLoop hb level found rest

/-- `slice_heading`. -/
def slice_heading (note : Note) (hb : Block) : Nat × Nat :=
  if hb.kind ≠ "heading" ∨ hb.heading_level = none then (hb.range.start, hb.range.stop)
  else
    match hb.heading_level with
    | none => (hb.range.start, hb.range.stop)
    | some level =>
      match sliceHeadingLoop hb level false note.body.blocks with
      | some e => (hb.range.start, e)
      | none => (hb.range.start, note.body.raw.length)

/-- `slice_block`. -/
def slice_block (note : Note) (b : Block) : Nat × Nat :=
  if b.kind = "heading" then slice_heading note b
  else (b.range.start, b.range.stop)

/-- The frontmatter-skip loop of `slice_by_anchor` for a missing anchor
(`core/slicer.py` lines 79-86): over `text.split('\n')`, the first line of
index at least 1 whose strip equals `---` yields the offset just past it,
counting each line as its length plus one. -/
def fmSkipLoop (acc : Nat) : List Str → Option Nat
  | [] => none
  | l :: rest =>
    if pyStrip l = str "---" then some (acc + l.length + 1)
    else fmSkipLoop (acc + l.length + 1) rest

/-- `slice_by_anchor` (`core/slicer.py` lines 65-106). -/
def slice_by_anchor (note : Note) (anchor : Option Anchor) : Nat × Nat :=
  match anchor with
  | none =>
    let text := note.body.raw
    if pyStartsWith (str "---") text then
      match pySplitAllChar '\n' text with
      | [] => (0, text.length)
      | l0 :: rest =>
        match fmSkipLoop (l0.length + 1) rest with
        | some start => (start, text.length)
        | none => (0, text.length)
    else (0, text.length)
  | some a =>
    if a.kind = "block" then
      match find_label note a.value with
      | none => (0, 0)
      | some b => slice_block note b
    else if a.kind = "heading" then
      match find_heading_by_slug note a.value with
      | none => (0, 0)
      | some b => slice_heading note b
    else (0, 0)

/-! ## Header codec (`adapters/yaml_codec.py`)

`_FM = re.compile(r"^\s*---\s*\n(.*?)\n---\s*\n?", re.DOTALL)` is embedded by
`fmMatch` below, resolving the backtracking of the anchored pattern:
maximal leading whitespace then `---`; then `\s*\n` consumes up to and
including the last newline of the following whitespace run; the lazy group
ends at the first later occurrence of `"\n---"`; the trailing `\s*\n?`
greedily consumes the whitespace run after the closing `---`. -/

/-- The index of the last `'\n'` of a string (`none` when there is none);
implements the backtracking of the `\s*\n` step on the whitespace run. -/
def lastNlIdx : Str → Option Nat
  | [] => none
  | c :: rest =>
    match lastNlIdx rest with
    | some k => some (k + 1)
    | none => if c = '\n' then some 0 else none

/-- `_FM.match(text)`: on success, the pair of group 1 and the remainder of
the text after the whole match.  The skipped leading whitespace is
`t.dropWhile pyIsSpace`; after the opening `---` the last newline of the
whitespace run is consumed; the lazy group ends at the first `"\n---"`; the
trailing whitespace run after the closing `---` is consumed greedily. -/
def fmMatch (t : Str) : Option (Str × Str) :=
  if pyStartsWith (str "---") (t.dropWhile pyIsSpace) then
    match lastNlIdx (((t.dropWhile pyIsSpace).drop 3).takeWhile pyIsSpace) with
    | none => none
    | some k =>
      match splitFirst (str "\n---") (((t.dropWhile pyIsSpace).drop 3).drop (k + 1)) with
      | some (g1, s3) => some (g1, s3.dropWhile pyIsSpace)
      | none => none
  else none

/-- `yaml.safe_dump(meta, sort_keys=False)` on the fragment of flat mappings
from plain keys to plain multi-word string scalars: one `key: value` line
per entry, in order. -/
def yamlDump (m : List (Str × Str)) : Str :=
  match m with
  | [] => []
  | (k, v) :: rest => k ++ str ": " ++ v ++ [ '\n' ] ++ yamlDump rest

/-- One line of the `yaml.safe_load` model: split at the first `": "`. -/
def yamlLoadLine (l : Str) : Option (Str × Str) := splitFirst (str ": ") l

/-- `yaml.safe_load` on the same flat fragment as `yamlDump`; the empty
region loads as the empty mapping (Python `safe_load(...) or {}`). -/
def yamlLoad (s : Str) : Option (List (Str × Str)) :=
  if s = [] then some []
  else (pySplitAllChar '\n' s).mapM yamlLoadLine

/-- `YamlFrontmatter.decode`: no match of `_FM` gives the empty meta with the
whole text as body; otherwise the group is loaded (`none` models the
`yaml.YAMLError` the loader can raise). -/
def fmDecode (t : Str) : Option (List (Str × Str) × Str) :=
  match fmMatch t with
  | none => some ([], t)
  | some (g1, body) => (yamlLoad g1).map (fun m => (m, body))

/-- `YamlFrontmatter.encode`. -/
def fmEncode (m : List (Str × Str)) : Str :=
  if m = [] then [] else str "---" ++ ['\n'] ++ yamlDump m ++ str "---" ++ ['\n']

/-- `MarkdownNoteCodec.decode_file` (the id argument is unused). -/
def decode_file (t : Str) : Option (List (Str × Str) × Str) := fmDecode t

/-- `MarkdownNoteCodec.encode_file`: mirrors the meta, appending an `id`
entry when the mapping has none, then the frontmatter followed by the raw
body. -/
def encode_file (note : Note) : Str :=
  let meta :=
    if str "id" ∈ note.meta.map Prod.fst then note.meta
    else note.meta ++ [(str "id", note.id)]
  fmEncode meta ++ note.body.raw

/-! ## Vault over the filesystem storage
(`core/vault.py`, `adapters/fs_storage.py`)

`FsStorage` is modelled as an association list from note id to file content:
`write_raw` creates or overwrites the file, `delete_raw` unlinks it and
`list_all_ids` enumerates the `*.md` stems. -/

/-- The modelled vault directory. -/
abbrev Storage := List (Str × Str)

/-- `FsStorage.read_raw`. -/
def read_raw (st : Storage) (id : Str) : Option Str :=
  (st.find? (fun e => e.1 = id)).map Prod.snd

/-- `FsStorage.write_raw` (creates or overwrites the file). -/
def write_raw (st : Storage) (id : Str) (contents : Str) : Storage :=
  if id ∈ st.map Prod.fst then
    st.map (fun e => if e.1 = id then (id, contents) else e)
  else st ++ [(id, contents)]

/-- `FsStorage.delete_raw`. -/
def delete_raw (st : Storage) (id : Str) : Storage :=
  st.filter (fun e => ¬ e.1 = id)

/-- `FsStorage.list_all_ids`. -/
def list_all_ids (st : Storage) : List Str := st.map Prod.fst

/-- `Vault.get`: read, split the header, parse the body. -/
def Vault_get (st : Storage) (id : Str) : Option Note :=
  match read_raw st id with
  | none => none
  | some raw =>
    match decode_file raw with
    | none => none
    | some (meta, bodyText) => some { id := id, meta := meta, body := parse bodyText id }

/-- `Vault.delete` (`core/vault.py` lines 29-31): the code writes an empty
file through `storage.write_raw(id, "")` instead of removing it. -/
def Vault_delete (st : Storage) (id : Str) : Storage := write_raw st id []

/-- `Vault.list_ids`. -/
def Vault_list_ids (st : Storage) : List Str := list_all_ids st

/-! ## Durable index (`adapters/sqlite_index.py`)

The SQLite store is modelled as lists of rows.  `SQLiteIndex._conn`
(lines 28-34) sets the journal, synchronous and temp-store pragmas but never
`PRAGMA foreign_keys=ON`; in SQLite foreign keys default to off per
connection, so the `ON DELETE CASCADE` clauses declared in the schema never
fire.  The embedding therefore removes only the rows that the Python code
deletes explicitly: a `DELETE FROM notes` touches no `blocks`, `links` or
`kv` rows.  Python set iteration order is modelled by list order, and the
SHA-256 digest by the content itself (any injective deterministic digest
gives the same model). -/

/-- A file of the watched vault directory: id, content and mtime. -/
structure FileEnt where
  id : Str
  content : Str
  mtime : Int
deriving DecidableEq, Repr

/-- The vault directory as seen by the index. -/
abbrev VaultFs := List FileEnt

/-- A row of the `notes` table. -/
structure NoteRow where
  id : Str
  mtime_ns : Int
  size_bytes : Nat
  hash : Option Str
  title : Str
  has_math : Bool
deriving DecidableEq, Repr

/-- A row of the `blocks` table. -/
structure BlockRow where
  note_id : Str
  kind : String
  start : Nat
  stop : Nat
  level : Option Nat
  slug : Option Str
  label : Option Str
deriving DecidableEq, Repr

/-- A row of the `links` table. -/
structure LinkRow where
  src : Str
  dst : Str
  start : Nat
  stop : Nat
  rel : Option Str
  anchor_kind : Option String
  anchor_value : Option Str
deriving DecidableEq, Repr

/-- A row of the `kv` table. -/
structure KvRow where
  note_id : Str
  key : Str
  value : Str
deriving DecidableEq, Repr

/-- A row of the `fts` table. -/
structure FtsRow where
  id : Str
  body : Str
  title : Str
deriving DecidableEq, Repr

/-- The modelled database. -/
structure DB where
  notes : List NoteRow := []
  blocks : List BlockRow := []
  links : List LinkRow := []
  kv : List KvRow := []
  fts : List FtsRow := []
deriving DecidableEq, Repr

/-- The counts reported by `rebuild`. -/
structure Counts where
  scanned : Nat := 0
  dirty : Nat := 0
  inserted : Nat := 0
  updated : Nat := 0
  removed : Nat := 0
  failed : Nat := 0
deriving DecidableEq, Repr

/-- `SQLiteIndex._get_file_stats`: mtime and size of the note file. -/
def getFileStats (fs : VaultFs) (id : Str) : Option (Int × Nat) :=
  (fs.find? (fun e => e.id = id)).map (fun e => (e.mtime, e.content.length))

/-- The storage view of the watched directory, for `Vault.get`. -/
def fsStorage (fs : VaultFs) : Storage := fs.map (fun e => (e.id, e.content))

/-- `SQLiteIndex._compute_hash` (digest modelled by the content itself). -/
def computeHash (fs : VaultFs) (id : Str) : Option Str :=
  (fs.find? (fun e => e.id = id)).map (fun e => e.content)

/-- `SQLiteIndex._is_dirty`. -/
def isDirty (fs : VaultFs) (db : DB) (id : Str) (use_hash : Bool) : Bool :=
  match getFileStats fs id with
  | none => false
  | some (mt, sz) =>
    match db.notes.find? (fun r => r.id = id) with
    | none => true
    | some row =>
      if row.mtime_ns ≠ mt ∨ row.size_bytes ≠ sz then true
      else if use_hash then computeHash fs id ≠ row.hash
      else false

/-- `SQLiteIndex._extract_title`: `core/title`, then `title`, then the first
heading text (when nonempty), then the first nonempty stripped line that
does not start with `---`, else empty. -/
def extractTitle (note : Note) : Str :=
  match note.meta.find? (fun kv => kv.1 = str "core/title") with
  | some kv => kv.2
  | none =>
    match note.meta.find? (fun kv => kv.1 = str "title") with
    | some kv => kv.2
    | none =>
      match note.body.blocks.find?
          (fun b => b.kind = "heading" && b.heading_text.getD [] ≠ []) with
      | some b => b.heading_text.getD []
      | none =>
        match (splitlinesNoKeep note.body.raw).find?
            (fun l => pyStrip l ≠ [] && ¬ pyStartsWith (str "---") (pyStrip l)) with
        | some l => pyStrip l
        | none => []

/-- The per-position test of `re.search(r'(?<!\\)\$', ...)`: a dollar not
immediately preceded by a backslash; `prev` is the previous character. -/
def hudAux (prev : Option Char) : Str → Bool
  | [] => false
  | '$' :: rest => if prev = some '\\' then hudAux (some '$') rest else true
  | c :: rest => hudAux (some c) rest

/-- `SQLiteIndex._detect_math`. -/
def detectMath (raw : Str) : Bool :=
  if ¬ hasSubstr (str "$") raw then false else hudAux none raw

/-- `SQLiteIndex._index_note`: load the note, compute stats, then in one
transaction upsert the `notes` row, delete this note's `blocks`, `links`
(by `src`) and `kv` rows, insert the current ones, and replace the `fts`
row.  Returns the new database and the success flag. -/
def indexNote (fs : VaultFs) (db : DB) (id : Str) (use_hash : Bool) : DB × Bool :=
  match Vault_get (fsStorage fs) id with
  | none => (db, false)
  | some note =>
    match getFileStats fs id with
    | none => (db, false)
    | some (mt, sz) =>
      let fileHash := if use_hash then computeHash fs id else none
      let title := extractTitle note
      let hasMath := detectMath note.body.raw
      let row : NoteRow :=
        { id := id, mtime_ns := mt, size_bytes := sz, hash := fileHash
          title := title, has_math := hasMath }
      let notes' :=
        if id ∈ db.notes.map NoteRow.id then
          db.notes.map (fun r => if r.id = id then row else r)
        else db.notes ++ [row]
      let blocks' := db.blocks.filter (fun r => ¬ r.note_id = id) ++
        note.body.blocks.map (fun b =>
          { note_id := id, kind := b.kind, start := b.range.start, stop := b.range.stop
            level := b.heading_level, slug := b.heading_slug
            label := b.label.map BlockLabel.name })
      let links' := db.links.filter (fun r => ¬ r.src = id) ++
        note.body.links.map (fun l =>
          { src := id, dst := l.target.id
            start := (l.range.map Range.start).getD 0
            stop := (l.range.map Range.stop).getD 0
            rel := l.target.rel
            anchor_kind := l.target.anchor.map Anchor.kind
            anchor_value := l.target.anchor.map Anchor.value })
      -- `core/aliases` rows are inserted only for list-typed values
      -- (`isinstance(aliases, list)`); meta values are modelled on the flat
      -- string fragment, where that test is false and no row is inserted.
      let kv' := db.kv.filter (fun r => ¬ r.note_id = id)
      let fts' := db.fts.filter (fun r => ¬ r.id = id) ++
        [{ id := id, body := note.body.raw, title := title }]
      ({ notes := notes', blocks := blocks', links := links', kv := kv', fts := fts' }, true)

/-- Step 3 of `rebuild`: process one file id. -/
def rebuildStep (fs : VaultFs) (full use_hash : Bool) (dbIds : List Str)
    (acc : DB × Counts) (id : Str) : DB × Counts :=
  let (db, c) := acc
  let isNew := id ∉ dbIds
  if full || isDirty fs db id use_hash then
    let (db', ok) := indexNote fs db id use_hash
    if ok then
      if isNew then (db', { c with dirty := c.dirty + 1, inserted := c.inserted + 1 })
      else (db', { c with dirty := c.dirty + 1, updated := c.updated + 1 })
    else (db', { c with dirty := c.dirty + 1, failed := c.failed + 1 })
  else (db, c)

/-- `SQLiteIndex.rebuild` (`sqlite_index.py` lines 392-460): remove the ids
that are in the database but not on disk (deleting only their `notes` and
`fts` rows, see the section comment), then reindex every file that is dirty
or, under `full`, every file. -/
def rebuild (fs : VaultFs) (db : DB) (full use_hash : Bool) : DB × Counts :=
  let fileIds := (fsStorage fs).map Prod.fst
  let dbIds := db.notes.map NoteRow.id
  let removedIds := dbIds.filter (fun i => i ∉ fileIds)
  let db1 : DB :=
    { db with
      notes := db.notes.filter (fun r => r.id ∉ removedIds)
      fts := db.fts.filter (fun r => r.id ∉ removedIds) }
  let c0 : Counts := { scanned := fileIds.length, removed := removedIds.length }
  fileIds.foldl (rebuildStep fs full use_hash dbIds) (db1, c0)

/-- Insertion into a list sorted by the `links_in` order (`src`, `start`). -/
def linksInInsert (r : LinkRow) : List LinkRow → List LinkRow
  | [] => [r]
  | x :: rest =>
    if r.src < x.src ∨ (r.src = x.src ∧ r.start < x.start) then r :: x :: rest
    else x :: linksInInsert r rest

/-- `SQLiteIndex.links_in`: rows with the given `dst`, ordered by
(`src`, `start`). -/
def links_in (db : DB) (id : Str) : List LinkRow :=
  (db.links.filter (fun r => r.dst = id)).foldl (fun acc r => linksInInsert r acc) []

/-! ## Watcher (`watch.py`) -/

/-- A filesystem event delivered to `DebounceHandler` (the source path is
operated on only through its final name). -/
inductive FsEvent where
  | created (isDir : Bool) (name : Str)
  | modified (isDir : Bool) (name : Str)
  | deleted (isDir : Bool) (name : Str)
deriving DecidableEq, Repr

/-- `DebounceHandler._should_skip`: hidden files, temp and swap artifacts,
and anything that is not an `.md` file. -/
def shouldSkip (name : Str) : Bool :=
  if pyStartsWith (str ".") name then true
  else if pyEndsWith (str "~") name || pyEndsWith (str ".swp") name ||
      pyStartsWith (str ".#") name then true
  else if ¬ pyEndsWith (str ".md") name then true
  else false

/-- `Path.stem`: the final name without its last suffix. -/
def pathStem (name : Str) : Str :=
  match splitFirst (str ".") name.reverse with
  | some (_, restRev) => restRev.reverse
  | none => name

/-- `DebounceHandler._extract_id`. -/
def extractId (name : Str) : Option Str :=
  if shouldSkip name then none else some (pathStem name)

/-- The batch state of `DebounceHandler`: the `added`, `modified` and
`deleted` id sets (sets modelled as duplicate-free lists). -/
structure BatchSt where
  added : List Str := []
  modified : List Str := []
  deleted : List Str := []
deriving DecidableEq, Repr

/-- `set.add`. -/
def setAdd (s : List Str) (id : Str) : List Str :=
  if id ∈ s then s else s ++ [id]

/-- One event dispatch (`on_created` / `on_modified` / `on_deleted`):
directory events are ignored, skipped names yield no id, and the id is added
to the corresponding set only — a deletion does not remove the id from
`added` or `modified`. -/
def stepEvent (st : BatchSt) : FsEvent → BatchSt
  | .created isDir name =>
    if isDir then st else
      match extractId name with
      | some id => { st with added := setAdd st.added id }
      | none => st
  | .modified isDir name =>
    if isDir then st else
      match extractId name with
      | some id => { st with modified := setAdd st.modified id }
      | none => st
  | .deleted isDir name =>
    if isDir then st else
      match extractId name with
      | some id => { st with deleted := setAdd st.deleted id }
      | none => st

/-- The batch state after a sequence of events. -/
def runEvents (evs : List FsEvent) : BatchSt := evs.foldl stepEvent {}

/-- `DebounceHandler.flush`: `changed = added | modified` and the deleted
set, as handed to `index.update_notes`. -/
def flushSets (st : BatchSt) : List Str × List Str :=
  (st.modified.foldl setAdd st.added, st.deleted)

/-- A non-directory `created` event whose name passes the filter and yields
the given id. -/
def createdEventFor (id : Str) : FsEvent → Bool
  | .created isDir name => !isDir && decide (extractId name = some id)
  | _ => false

/-- A non-directory `modified` event whose name passes the filter and yields
the given id. -/
def modifiedEventFor (id : Str) : FsEvent → Bool
  | .modified isDir name => !isDir && decide (extractId name = some id)
  | _ => false

/-- An event that puts its id into the `changed` half of a batch: a
non-directory `created` or `modified` event whose name passes the filter. -/
def changeEventFor (id : Str) (e : FsEvent) : Bool :=
  createdEventFor id e || modifiedEventFor id e

/-- A non-directory `deleted` event whose name passes the filter. -/
def deleteEventFor (id : Str) : FsEvent → Bool
  | .deleted isDir name => !isDir && decide (extractId name = some id)
  | _ => false

/-! # Theorems -/

/-- Claim C1 (code bug record): the heading behaviour the claim describes,
evaluated on the embedding of the parser.  In the Python source this very
computation raises `TypeError` on any heading line, because
`MarkdownParser.parse` passes `heading_level=` and `heading_slug=` keyword
arguments that the `Block` dataclass of `core/model.py` does not declare;
the embedding uses the record the parser constructs.  On the body
`"# A\n## Bee Cee ^lbl\n"` the intended parse emits one heading block per
heading line, with `heading_level` the number of `#` characters (each in
1..6) and `heading_slug` the slug of the heading text with the trailing
`^label` token removed. -/
theorem c1_heading_blocks :
    (parse (str "# A\n## Bee Cee ^lbl\n") (str "n")).blocks =
      [{ kind := "heading", range := ⟨0, 4⟩, heading_text := some (str "A"),
         heading_level := some 1, heading_slug := some (str "a") },
       { kind := "heading", range := ⟨4, 20⟩, label := some ⟨str "lbl"⟩,
         heading_text := some (str "Bee Cee ^lbl"),
         heading_level := some 2, heading_slug := some (str "bee-cee") }] := by
  decide

/-- Claim C2 (code bug record): with notes `A` (body `[[x]]`) and `x`
indexed, deleting `A` from the vault and rebuilding reports `removed = 1`
and removes `A` from the `notes` table, yet `links_in(x)` still contains the
row with `src = 'A'`: `SQLiteIndex._conn` never issues
`PRAGMA foreign_keys=ON`, so the declared `ON DELETE CASCADE` never fires
and the dependent `links` rows survive, contradicting the claim. -/
theorem c2_no_cascade :
    (rebuild [⟨str "x", str "hi", 1⟩]
        (rebuild [⟨str "A", str "[[x]]", 1⟩, ⟨str "x", str "hi", 1⟩] {} true false).1
        false false).2.removed = 1 ∧
    str "A" ∉ ((rebuild [⟨str "x", str "hi", 1⟩]
        (rebuild [⟨str "A", str "[[x]]", 1⟩, ⟨str "x", str "hi", 1⟩] {} true false).1
        false false).1.notes.map NoteRow.id) ∧
    (links_in
        (rebuild [⟨str "x", str "hi", 1⟩]
          (rebuild [⟨str "A", str "[[x]]", 1⟩, ⟨str "x", str "hi", 1⟩] {} true false).1
          false false).1
        (str "x")).any (fun r => r.src = str "A") = true := by
  decide

/-- Claim C3 (code bug record): `Vault.delete` calls
`storage.write_raw(id, "")`, which truncates the note file to empty instead
of removing it; afterwards `Vault.get(id)` returns a note with empty meta
and empty body (not `None`) and the id still appears in `list_ids()`. -/
theorem c3_delete_truncates :
    Vault_get (Vault_delete [(str "a", str "hello")] (str "a")) (str "a") =
      some { id := str "a", meta := [], body := { raw := [] } } ∧
    str "a" ∈ Vault_list_ids (Vault_delete [(str "a", str "hello")] (str "a")) := by
  decide

/-- Claim C4 counterexample: the text `"---\na: b\n"` begins with an opening
`---` line and has no closing `---` line, yet `YamlFrontmatter.decode`
returns the empty header with the full text as body instead of failing with
`MalformedHeader` (no such error exists in the code). -/
theorem c4_silent_empty_header :
    fmDecode (str "---\na: b\n") = some ([], str "---\na: b\n") := by
  decide

/-- Claim C5 counterexample: on the note whose parsed body is
`"---\na\n---\nb"`, `slice_by_anchor(note, None)` returns `(10, 11)` — the
code skips a frontmatter-looking prefix of the body — not the whole body
`(0, 11)` the claim requires. -/
theorem c5_frontmatter_skip :
    slice_by_anchor
        { id := str "n", body := parse (str "---\na\n---\nb") (str "n") } none =
      (10, 11) ∧
    (10, 11) ≠
      (0, (parse (str "---\na\n---\nb") (str "n")).raw.length) := by
  decide

/-- Claim C6 (code bug record): the heading-slice behaviour the claim
describes, evaluated on the embedding.  In the Python source
`MarkdownParser.parse` raises `TypeError` on this body (see the `Block`
dataclass discrepancy recorded with C1), so the slice is never reached; on
the embedding, the slice for the heading anchor `b` on the body
`"# A\n\ntext\n## B\n\nbody\n## C\n\nmore\n"` is `(10, 21)`, exactly the
substring `"## B\n\nbody\n"` from the start of the `## B` line to the start
of the next heading of level at most 2. -/
theorem c6_heading_slice :
    slice_by_anchor
        { id := str "n",
          body := parse (str "# A\n\ntext\n## B\n\nbody\n## C\n\nmore\n") (str "n") }
        (some ⟨"heading", str "b"⟩) = (10, 21) ∧
    ((str "# A\n\ntext\n## B\n\nbody\n## C\n\nmore\n").drop 10).take 11 =
      str "## B\n\nbody\n" := by
  decide

/-- Claim C7 counterexample: parsing a body that is exactly
`[[abc123#heading|Title]]` yields links none of which carries
`title_text = "Title"`; `_parse_target` splits the display title off and
drops it. -/
theorem c7_title_dropped :
    ((parse (str "[[abc123#heading|Title]]") (str "src")).links.all
      (fun l => ¬ l.target.title_text = some (str "Title"))) = true ∧
    (parse (str "[[abc123#heading|Title]]") (str "src")).links.length = 1 := by
  decide

/-- Claim C7 as amended: parsing a body containing `[[abc123#heading|Title]]`
produces one link whose `target.id` is `abc123` and whose anchor is the
heading anchor `heading`, but whose `title_text` is `None` — the display
title is parsed off and discarded, never recorded. -/
theorem c7_link_fields :
    (parse (str "[[abc123#heading|Title]]") (str "src")).links =
      [{ source := str "src",
         target := { id := str "abc123",
                     anchor := some ⟨"heading", str "heading"⟩ },
         range := some ⟨0, 24⟩ }] := by
  decide

/-- Claim C8 counterexample: after the batch
`created a.md; modified a.md; deleted a.md`, the flush delivers the id `a`
in the `changed` set as well as in the `deleted` set — the deletion does not
override the earlier events, contradicting the claim that such an id is
delivered only in the deleted set. -/
theorem c8_delete_does_not_override :
    str "a" ∈ (flushSets (runEvents
        [.created false (str "a.md"), .modified false (str "a.md"),
         .deleted false (str "a.md")])).1 ∧
    str "a" ∈ (flushSets (runEvents
        [.created false (str "a.md"), .modified false (str "a.md"),
         .deleted false (str "a.md")])).2 := by
  decide

/-- Claim C9 counterexample: the well-formed note file
`"---\na: b c\n---\nz\n"` (header keys in insertion order) decodes, but
re-encoding appends the `id` entry that `MarkdownNoteCodec.encode_file`
injects for any note whose header lacks one, so the round trip is not the
identity. -/
theorem c9_id_injection :
    (fmDecode (str "---\na: b c\n---\nz\n")).map
        (fun p => encode_file { id := str "n1", meta := p.1, body := { raw := p.2 } }) =
      some (str "---\na: b c\nid: n1\n---\nz\n") ∧
    ¬ (fmDecode (str "---\na: b c\n---\nz\n")).map
        (fun p => encode_file { id := str "n1", meta := p.1, body := { raw := p.2 } }) =
      some (str "---\na: b c\n---\nz\n") := by
  decide

/-- Claim C10 counterexample: in the body `[[a![[b]]` the transclusion
`![[b]]` spans `(3, 9)` with target id `b`, but the link scan has already
consumed `[[a![[b]]` as a single link spanning `(0, 9)` with target id
`a![[b`, so no link with the transclusion's target starts one character
after the transclusion — the non-overlapping scan does exclude this
transclusion interior. -/
theorem c10_overlap_misses_link :
    (parse (str "[[a![[b]]") (str "src")).transclusions =
      [{ target := { id := str "b" }, range := some ⟨3, 9⟩ }] ∧
    ((parse (str "[[a![[b]]") (str "src")).links.all
      (fun l => ¬ (l.range = some ⟨4, 9⟩ ∧ l.target = { id := str "b" }))) = true := by
  decide

/-- Claim C5 as amended: `slice_by_anchor(note, None)` returns
`(0, len(body.raw))` for every note whose body does not begin with `---`;
when the body begins with a frontmatter-looking `---` block the code instead
skips past the closing `---` line (the counterexample above). -/
theorem c5_whole_body (note : Note)
    (h : pyStartsWith (str "---") note.body.raw = false) :
    slice_by_anchor note none = (0, note.body.raw.length) := by
  simp [slice_by_anchor, h]

/-- Claim C5 witness: the amended statement applied to a concrete note whose
body is `"hello"`. -/
theorem c5_whole_body_witness :
    pyStartsWith (str "---") (parse (str "hello") (str "n")).raw = false ∧
    slice_by_anchor { id := str "n", body := parse (str "hello") (str "n") } none
      = (0, 5) :=
  ⟨by decide, c5_whole_body { id := str "n", body := parse (str "hello") (str "n") } (by decide)⟩

/-- Membership after a `set.add`. -/
theorem mem_setAdd (s : List Str) (x y : Str) : y ∈ setAdd s x ↔ y ∈ s ∨ y = x := by
  unfold setAdd
  by_cases hx : x ∈ s
  · simp only [if_pos hx]
    constructor
    · exact fun h => Or.inl h
    · rintro (h | rfl)
      · exact h
      · exact hx
  · simp [if_neg hx]

/-- Membership after folding `set.add` over a list. -/
theorem mem_foldl_setAdd (l : List Str) (s : List Str) (y : Str) :
    y ∈ l.foldl setAdd s ↔ y ∈ s ∨ y ∈ l := by
  induction l generalizing s with
  | nil => simp
  | cons x xs ih =>
    simp only [List.foldl_cons, ih, mem_setAdd, List.mem_cons]
    tauto

/-- The `added` set of a batch records exactly the filtered non-directory
`created` events. -/
theorem mem_added_foldl (evs : List FsEvent) (st : BatchSt) (id : Str) :
    id ∈ (evs.foldl stepEvent st).added ↔
      id ∈ st.added ∨ evs.any (createdEventFor id) = true := by
  induction evs generalizing st with
  | nil => simp
  | cons e evs ih =>
    simp only [List.foldl_cons, ih, List.any_cons, Bool.or_eq_true]
    cases e with
    | created isDir name =>
      cases isDir <;> cases hx : extractId name <;>
        simp [stepEvent, createdEventFor, modifiedEventFor, hx, mem_setAdd] <;> tauto
    | modified isDir name =>
      cases isDir <;> cases hx : extractId name <;>
        simp [stepEvent, createdEventFor, modifiedEventFor, hx, mem_setAdd] <;> tauto
    | deleted isDir name =>
      cases isDir <;> cases hx : extractId name <;>
        simp [stepEvent, createdEventFor, modifiedEventFor, hx, mem_setAdd] <;> tauto

/-- The `modified` set of a batch records exactly the filtered non-directory
`modified` events. -/
theorem mem_modified_foldl (evs : List FsEvent) (st : BatchSt) (id : Str) :
    id ∈ (evs.foldl stepEvent st).modified ↔
      id ∈ st.modified ∨ evs.any (modifiedEventFor id) = true := by
  induction evs generalizing st with
  | nil => simp
  | cons e evs ih =>
    simp only [List.foldl_cons, ih, List.any_cons, Bool.or_eq_true]
    cases e with
    | created isDir name =>
      cases isDir <;> cases hx : extractId name <;>
        simp [stepEvent, createdEventFor, modifiedEventFor, hx, mem_setAdd] <;> tauto
    | modified isDir name =>
      cases isDir <;> cases hx : extractId name <;>
        simp [stepEvent, createdEventFor, modifiedEventFor, hx, mem_setAdd] <;> tauto
    | deleted isDir name =>
      cases isDir <;> cases hx : extractId name <;>
        simp [stepEvent, createdEventFor, modifiedEventFor, hx, mem_setAdd] <;> tauto

/-- The `deleted` set of a batch records exactly the filtered non-directory
`deleted` events. -/
theorem mem_deleted_foldl (evs : List FsEvent) (st : BatchSt) (id : Str) :
    id ∈ (evs.foldl stepEvent st).deleted ↔
      id ∈ st.deleted ∨ evs.any (deleteEventFor id) = true := by
  induction evs generalizing st with
  | nil => simp
  | cons e evs ih =>
    simp only [List.foldl_cons, ih, List.any_cons, Bool.or_eq_true]
    cases e with
    | created isDir name =>
      cases isDir <;> cases hx : extractId name <;>
        simp [stepEvent, deleteEventFor, hx, mem_setAdd] <;> tauto
    | modified isDir name =>
      cases isDir <;> cases hx : extractId name <;>
        simp [stepEvent, deleteEventFor, hx, mem_setAdd] <;> tauto
    | deleted isDir name =>
      cases isDir <;> cases hx : extractId name <;>
        simp [stepEvent, deleteEventFor, hx, mem_setAdd] <;> tauto

/-- Splitting `changeEventFor` into its `created` and `modified` parts. -/
theorem any_changeEventFor (evs : List FsEvent) (id : Str) :
    evs.any (changeEventFor id) = true ↔
      evs.any (createdEventFor id) = true ∨ evs.any (modifiedEventFor id) = true := by
  induction evs with
  | nil => simp
  | cons e evs ih =>
    simp only [List.any_cons, Bool.or_eq_true, changeEventFor]
    rw [ih]
    tauto

/-- Membership in the flushed `changed` set. -/
theorem mem_flush_changed (evs : List FsEvent) (id : Str) :
    id ∈ (flushSets (runEvents evs)).1 ↔ evs.any (changeEventFor id) = true := by
  unfold flushSets runEvents
  rw [mem_foldl_setAdd]
  rw [show (List.foldl stepEvent {} evs) = (evs.foldl stepEvent {}) from rfl]
  rw [mem_added_foldl evs {} id, mem_modified_foldl evs {} id, any_changeEventFor]
  simp

/-- Membership in the flushed `deleted` set. -/
theorem mem_flush_deleted (evs : List FsEvent) (id : Str) :
    id ∈ (flushSets (runEvents evs)).2 ↔ evs.any (deleteEventFor id) = true := by
  unfold flushSets runEvents
  rw [show (List.foldl stepEvent {} evs) = (evs.foldl stepEvent {}) from rfl]
  rw [mem_deleted_foldl evs {} id]
  simp

/-- Claim C8 as amended: in any watcher batch, an id observed as created or
modified (and not deleted) is delivered only in the `changed` set; but a
deletion does not override earlier events — an id observed as deleted after
being added or modified is delivered in both the `changed` and the `deleted`
set, not only in the deleted set. -/
theorem c8_batch_delivery (evs : List FsEvent) (id : Str) :
    (evs.any (changeEventFor id) = true → evs.any (deleteEventFor id) = false →
      id ∈ (flushSets (runEvents evs)).1 ∧ id ∉ (flushSets (runEvents evs)).2) ∧
    (evs.any (changeEventFor id) = true → evs.any (deleteEventFor id) = true →
      id ∈ (flushSets (runEvents evs)).1 ∧ id ∈ (flushSets (runEvents evs)).2) := by
  constructor
  · intro hc hd
    refine ⟨(mem_flush_changed evs id).mpr hc, ?_⟩
    rw [mem_flush_deleted evs id, hd]
    simp
  · intro hc hd
    exact ⟨(mem_flush_changed evs id).mpr hc, (mem_flush_deleted evs id).mpr hd⟩

/-- Claim C8 witness: the amended statement applied to the batch
`created a.md; modified a.md; deleted a.md` and the id `a`. -/
theorem c8_batch_delivery_witness :
    str "a" ∈ (flushSets (runEvents
      [.created false (str "a.md"), .modified false (str "a.md"),
       .deleted false (str "a.md")])).1 ∧
    str "a" ∈ (flushSets (runEvents
      [.created false (str "a.md"), .modified false (str "a.md"),
       .deleted false (str "a.md")])).2 :=
  (c8_batch_delivery
    [.created false (str "a.md"), .modified false (str "a.md"),
     .deleted false (str "a.md")] (str "a")).2 (by decide) (by decide)

/-- A string starting with `pat` is `pat` followed by the rest. -/
theorem startsWith_decomp (pat s : Str) (h : pyStartsWith pat s = true) :
    s = pat ++ s.drop pat.length := by
  induction pat generalizing s with
  | nil => simp
  | cons p ps ih =>
    cases s with
    | nil => simp [pyStartsWith] at h
    | cons c cs =>
      simp only [pyStartsWith, Bool.and_eq_true, beq_iff_eq] at h
      obtain ⟨rfl, h2⟩ := h
      simpa using ih cs h2

/-- `pyStartsWith pat (pat ++ s)` always holds. -/
theorem startsWith_append_self (pat s : Str) : pyStartsWith pat (pat ++ s) = true := by
  induction pat with
  | nil => simp [pyStartsWith]
  | cons p ps ih => simp [pyStartsWith, ih]

/-- A successful `splitFirst` decomposes the string. -/
theorem splitFirst_decomp (pat s a b : Str) (h : splitFirst pat s = some (a, b)) :
    s = a ++ pat ++ b := by
  induction s generalizing a with
  | nil => simp [splitFirst] at h
  | cons c cs ih =>
    by_cases hf : pyStartsWith pat (c :: cs) = true
    · simp only [splitFirst, hf, if_true, Option.some.injEq, Prod.mk.injEq] at h
      obtain ⟨rfl, rfl⟩ := h
      simpa using startsWith_decomp pat (c :: cs) hf
    · simp only [splitFirst, hf, if_false, Bool.false_eq_true, Option.map_eq_some'] at h
      obtain ⟨⟨a1, b1⟩, h1, h2⟩ := h
      simp only [Prod.mk.injEq] at h2
      obtain ⟨rfl, rfl⟩ := h2
      have := ih a1 h1
      simp [← this]

/-- `splitFirst` finds an occurrence that is literally present. -/
theorem splitFirst_isSome_append (pat x y : Str) (hp : pat ≠ []) :
    (splitFirst pat (x ++ pat ++ y)).isSome = true := by
  induction x with
  | nil =>
    cases pat with
    | nil => exact absurd rfl hp
    | cons p ps =>
      have hsw := startsWith_append_self (p :: ps) y
      rw [List.cons_append] at hsw
      simp [splitFirst, hsw]
  | cons c cs ih =>
    simp only [List.cons_append, List.append_assoc] at *
    by_cases hf : pyStartsWith pat (c :: (cs ++ (pat ++ y))) = true
    · simp [splitFirst, hf]
    · simp only [splitFirst]
      rw [if_neg]
      · simpa using ih
      · simpa using hf

/-- No occurrence in `t` means no occurrence in any suffix of `t`. -/
theorem splitFirst_none_of_suffix (pat t s : Str) (hp : pat ≠ [])
    (h : hasSubstr pat t = false) (hs : s <:+ t) : splitFirst pat s = none := by
  cases hsp : splitFirst pat s with
  | none => rfl
  | some ab =>
    obtain ⟨a, b⟩ := ab
    have hdec := splitFirst_decomp pat s a b hsp
    obtain ⟨u, rfl⟩ := hs
    have : (splitFirst pat ((u ++ a) ++ pat ++ b)).isSome = true :=
      splitFirst_isSome_append pat (u ++ a) b hp
    rw [hdec] at h
    unfold hasSubstr at h
    rw [show u ++ (a ++ pat ++ b) = (u ++ a) ++ pat ++ b by simp] at h
    rw [this] at h
    cases h

/-- When the text has no `"\n---"` occurrence the frontmatter regex cannot
match. -/
theorem fmMatch_none_of_no_close (t : Str)
    (h : hasSubstr (str "\n---") t = false) : fmMatch t = none := by
  unfold fmMatch
  by_cases h0 : pyStartsWith (str "---") (t.dropWhile pyIsSpace) = true
  · simp only [h0, if_true]
    cases hk : lastNlIdx (((t.dropWhile pyIsSpace).drop 3).takeWhile pyIsSpace) with
    | none => rfl
    | some k =>
      have hsuf : ((t.dropWhile pyIsSpace).drop 3).drop (k + 1) <:+ t := by
        have h1 : t.dropWhile pyIsSpace <:+ t := List.dropWhile_suffix pyIsSpace
        have h2 : (t.dropWhile pyIsSpace).drop 3 <:+ t.dropWhile pyIsSpace :=
          List.drop_suffix 3 _
        have h3 : ((t.dropWhile pyIsSpace).drop 3).drop (k + 1) <:+
            (t.dropWhile pyIsSpace).drop 3 := List.drop_suffix (k + 1) _
        exact (h3.trans h2).trans h1
      have hsp : splitFirst (str "\n---") (((t.dropWhile pyIsSpace).drop 3).drop (k + 1)) =
          none := splitFirst_none_of_suffix (str "\n---") t _ (by decide) h hsuf
      have hsp2 := hsp
      rw [List.drop_drop] at hsp2
      simp [hk, hsp, hsp2]
  · simp [h0]

/-- Claim C4 as amended: header decoding never fails.  For any input with no
occurrence of a newline followed by `---` — in particular any text that
begins with an opening `---` line but has no closing `---` line —
`YamlFrontmatter.decode` returns the empty header and the full text as the
body; no `MalformedHeader` error exists in the code. -/
theorem c4_unterminated_header (t : Str)
    (h : hasSubstr (str "\n---") t = false) : fmDecode t = some ([], t) := by
  unfold fmDecode
  rw [fmMatch_none_of_no_close t h]

/-- Claim C4 witness: the amended statement applied to `"---\nx"`. -/
theorem c4_unterminated_header_witness :
    hasSubstr (str "\n---") (str "---\nx") = false ∧
    fmDecode (str "---\nx") = some ([], str "---\nx") :=
  ⟨by decide, c4_unterminated_header (str "---\nx") (by decide)⟩

/-! ### Canonical round trip (claim C9)

The well-formedness predicates describe the flat fragment on which the
embedded `yamlDump` / `yamlLoad` agree with PyYAML: plain keys, plain
multi-word string scalars (an internal space keeps PyYAML from resolving
the scalar as a number, boolean or timestamp), distinct keys. -/

/-- Characters allowed in a header key of the canonical fragment. -/
def wfKeyChar (c : Char) : Prop := c.isAlphanum = true ∨ c = '_' ∨ c = '/'

/-- A well-formed header key. -/
def wfKey (k : Str) : Prop := k ≠ [] ∧ ∀ c ∈ k, wfKeyChar c

/-- Characters allowed in a header value of the canonical fragment. -/
def wfValChar (c : Char) : Prop := c.isAlphanum = true ∨ c = '_' ∨ c = '-' ∨ c = ' '

/-- A well-formed header value: a plain multi-word scalar that PyYAML both
loads as a string and dumps unquoted. -/
def wfVal (v : Str) : Prop :=
  v ≠ [] ∧ (∀ c ∈ v, wfValChar c) ∧ v.head? ≠ some ' ' ∧ v.head? ≠ some '-' ∧
    v.getLast? ≠ some ' ' ∧ ' ' ∈ v

/-- A well-formed header mapping of the canonical fragment. -/
def wfMeta (m : List (Str × Str)) : Prop :=
  m ≠ [] ∧ (m.map Prod.fst).Nodup ∧ ∀ kv ∈ m, wfKey kv.1 ∧ wfVal kv.2

instance (c : Char) : Decidable (wfKeyChar c) := by unfold wfKeyChar; infer_instance

instance (k : Str) : Decidable (wfKey k) := by unfold wfKey; infer_instance

instance (c : Char) : Decidable (wfValChar c) := by unfold wfValChar; infer_instance

instance (v : Str) : Decidable (wfVal v) := by unfold wfVal; infer_instance

instance (m : List (Str × Str)) : Decidable (wfMeta m) := by unfold wfMeta; infer_instance

/-- The body of the canonical fragment must not begin with whitespace
(otherwise the trailing `\s*` of the `_FM` regex consumes it). -/
def headNonWs (b : Str) : Bool :=
  match b with
  | [] => true
  | c :: _ => ¬ pyIsSpace c

/-- Key characters are not newlines, colons, hyphens or whitespace. -/
theorem wfKeyChar_facts (c : Char) (h : wfKeyChar c) :
    c ≠ '\n' ∧ c ≠ ':' ∧ c ≠ '-' ∧ pyIsSpace c = false := by
  rcases h with h | h | h
  · refine ⟨?_, ?_, ?_, ?_⟩
    · intro hc; subst hc; exact absurd h (by decide)
    · intro hc; subst hc; exact absurd h (by decide)
    · intro hc; subst hc; exact absurd h (by decide)
    · by_cases hs : pyIsSpace c = true
      · simp only [pyIsSpace, Bool.or_eq_true, beq_iff_eq] at hs
        rcases hs with ((((hs | hs) | hs) | hs) | hs) | hs <;>
          (subst hs; exact absurd h (by decide))
      · simpa using hs
  · subst h; refine ⟨by decide, by decide, by decide, by decide⟩
  · subst h; refine ⟨by decide, by decide, by decide, by decide⟩

/-- Value characters are not newlines and not colons. -/
theorem wfValChar_facts (c : Char) (h : wfValChar c) : c ≠ '\n' ∧ c ≠ ':' := by
  rcases h with h | h | h | h
  · refine ⟨?_, ?_⟩
    · intro hc; subst hc; exact absurd h (by decide)
    · intro hc; subst hc; exact absurd h (by decide)
  · subst h; exact ⟨by decide, by decide⟩
  · subst h; exact ⟨by decide, by decide⟩
  · subst h; exact ⟨by decide, by decide⟩

/-- `dumpInit m`: `yamlDump m` without its final newline (group 1 of the
`_FM` match on a canonical file). -/
def dumpInit : List (Str × Str) → Str
  | [] => []
  | [(k, v)] => k ++ str ": " ++ v
  | (k, v) :: rest => k ++ str ": " ++ v ++ ['\n'] ++ dumpInit rest

/-- Window lemma: a prefix avoiding the head character of the pattern is
passed over by `splitFirst`. -/
theorem splitFirst_append_left (p0 : Char) (ps w s : Str)
    (hw : ∀ c ∈ w, c ≠ p0) :
    splitFirst (p0 :: ps) (w ++ s) =
      (splitFirst (p0 :: ps) s).map (fun q => (w ++ q.1, q.2)) := by
  induction w with
  | nil =>
    simp only [List.nil_append]
    cases splitFirst (p0 :: ps) s <;> simp
  | cons c w' ih =>
    have hc : c ≠ p0 := hw c (by simp)
    have hbe : (p0 == c) = false := beq_eq_false_iff_ne.mpr (fun h => hc h.symm)
    simp only [List.cons_append, splitFirst, pyStartsWith, hbe, Bool.false_and,
      Bool.false_eq_true, if_false, List.append_eq]
    rw [ih (fun d hd => hw d (by simp [hd]))]
    cases splitFirst (p0 :: ps) s <;> simp

/-- `splitFirst` fires immediately on a literal occurrence. -/
theorem splitFirst_self (p0 : Char) (ps s : Str) :
    splitFirst (p0 :: ps) ((p0 :: ps) ++ s) = some ([], s) := by
  have h := startsWith_append_self (p0 :: ps) s
  simp only [List.cons_append] at h ⊢
  simp only [splitFirst, h, if_true]
  have hd : List.drop (p0 :: ps).length (p0 :: (ps ++ s)) = s := by
    rw [show (p0 :: (ps ++ s)) = (p0 :: ps) ++ s from rfl]
    exact List.drop_left (p0 :: ps) s
  rw [hd]

/-- A dumped header line contains no newline. -/
theorem line_no_nl (k v : Str) (hk : wfKey k) (hv : wfVal v) :
    ∀ c ∈ k ++ str ": " ++ v, c ≠ '\n' := by
  intro c hc
  simp only [List.append_assoc, List.mem_append] at hc
  rcases hc with hc | hc | hc
  · exact (wfKeyChar_facts c (hk.2 c hc)).1
  · rw [show str ": " = [':', ' '] from rfl] at hc
    have : c = ':' ∨ c = ' ' := by simpa using hc
    rcases this with rfl | rfl <;> decide
  · exact (wfValChar_facts c (hv.2.1 c hc)).1

/-- The lazy group of the `_FM` match on a canonical file: the first
`"\n---"` of `yamlDump m ++ "---\n" ++ b` sits at the final newline of the
dump. -/
theorem splitFirst_dump (m : List (Str × Str)) (b : Str)
    (hm : ∀ kv ∈ m, wfKey kv.1 ∧ wfVal kv.2) (hne : m ≠ []) :
    splitFirst (str "\n---") (yamlDump m ++ str "---" ++ ['\n'] ++ b) =
      some (dumpInit m, '\n' :: b) := by
  induction m with
  | nil => exact absurd rfl hne
  | cons kv rest ih =>
    obtain ⟨k, v⟩ := kv
    obtain ⟨hk, hv⟩ := hm (k, v) (by simp)
    have hw : ∀ c ∈ k ++ str ": " ++ v, c ≠ '\n' := line_no_nl k v hk hv
    have hx : yamlDump ((k, v) :: rest) ++ str "---" ++ ['\n'] ++ b =
        (k ++ str ": " ++ v) ++ ('\n' :: (yamlDump rest ++ str "---" ++ ['\n'] ++ b)) := by
      show (k ++ str ": " ++ v ++ ['\n'] ++ yamlDump rest) ++ str "---" ++ ['\n'] ++ b = _
      simp [List.append_assoc]
    rw [hx]
    rw [show (str "\n---") = '\n' :: str "---" from rfl]
    rw [splitFirst_append_left '\n' (str "---") _ _ hw]
    cases rest with
    | nil =>
      have : ('\n' :: (yamlDump [] ++ str "---" ++ ['\n'] ++ b)) =
          ('\n' :: str "---") ++ ('\n' :: b) := by simp [yamlDump]
      rw [this, splitFirst_self]
      simp [dumpInit]
    | cons kv2 rest2 =>
      obtain ⟨k2, v2⟩ := kv2
      obtain ⟨hk2, hv2⟩ := hm (k2, v2) (by simp)
      obtain ⟨c2, k2', rfl⟩ := List.exists_cons_of_ne_nil hk2.1
      have hc2 : ('-' == c2) = false :=
        beq_eq_false_iff_ne.mpr
          (fun h => (wfKeyChar_facts c2 (hk2.2 c2 (by simp))).2.2.1 h.symm)
      have hnofire : pyStartsWith ('\n' :: str "---")
          ('\n' :: (yamlDump ((c2 :: k2', v2) :: rest2) ++ str "---" ++ ['\n'] ++ b)) =
          false := by
        simp [yamlDump, pyStartsWith, hc2, str]
      have hstep : splitFirst ('\n' :: str "---")
          ('\n' :: (yamlDump ((c2 :: k2', v2) :: rest2) ++ str "---" ++ ['\n'] ++ b)) =
          (splitFirst ('\n' :: str "---")
            (yamlDump ((c2 :: k2', v2) :: rest2) ++ str "---" ++ ['\n'] ++ b)).map
            (fun p => ('\n' :: p.1, p.2)) := by
        simp only [splitFirst, hnofire, Bool.false_eq_true, if_false]
      rw [hstep]
      rw [show ('\n' :: str "---") = str "\n---" from rfl]
      rw [ih (fun kv hkv => hm kv (by simp [hkv])) (by simp)]
      simp [dumpInit, List.append_assoc]

/-- `pySplitAllChar` never returns the empty list. -/
theorem pySplitAllChar_ne_nil (sep : Char) (s : Str) : pySplitAllChar sep s ≠ [] := by
  induction s with
  | nil => simp [pySplitAllChar]
  | cons c rest ih =>
    simp only [pySplitAllChar]
    cases h : pySplitAllChar sep rest with
    | nil => simp
    | cons h t =>
      by_cases hc : c = sep <;> simp [hc]

/-- A separator-free prefix is carried into the first part of the split. -/
theorem pySplit_append_left (sep : Char) (w s h : Str) (t : List Str)
    (hw : ∀ c ∈ w, c ≠ sep) (hs : pySplitAllChar sep s = h :: t) :
    pySplitAllChar sep (w ++ s) = (w ++ h) :: t := by
  induction w with
  | nil => simpa using hs
  | cons c w' ih =>
    have hc : c ≠ sep := hw c (by simp)
    have ih2 := ih (fun d hd => hw d (by simp [hd]))
    simp only [List.cons_append, pySplitAllChar, List.append_eq, ih2, if_neg hc]

/-- Splitting `dumpInit m` on newlines recovers the header lines. -/
theorem pySplit_dumpInit (m : List (Str × Str))
    (hm : ∀ kv ∈ m, wfKey kv.1 ∧ wfVal kv.2) (hne : m ≠ []) :
    pySplitAllChar '\n' (dumpInit m) =
      m.map (fun kv => kv.1 ++ str ": " ++ kv.2) := by
  induction m with
  | nil => exact absurd rfl hne
  | cons kv rest ih =>
    obtain ⟨k, v⟩ := kv
    obtain ⟨hk, hv⟩ := hm (k, v) (by simp)
    have hw := line_no_nl k v hk hv
    cases rest with
    | nil =>
      have hbase : pySplitAllChar '\n' ([] : Str) = [] :: [] := rfl
      have := pySplit_append_left '\n' (k ++ str ": " ++ v) [] [] [] hw hbase
      simpa [dumpInit] using this
    | cons kv2 rest2 =>
      have hrest := ih (fun kv hkv => hm kv (by simp [hkv])) (by simp)
      obtain ⟨h2, t2, hht⟩ : ∃ h2 t2, pySplitAllChar '\n' (dumpInit (kv2 :: rest2)) =
          h2 :: t2 := by
        cases hx : pySplitAllChar '\n' (dumpInit (kv2 :: rest2)) with
        | nil => exact absurd hx (pySplitAllChar_ne_nil '\n' _)
        | cons a b => exact ⟨a, b, rfl⟩
      have hcons : pySplitAllChar '\n' ('\n' :: dumpInit (kv2 :: rest2)) =
          [] :: h2 :: t2 := by
        simp [pySplitAllChar, hht]
      have hfull := pySplit_append_left '\n' (k ++ str ": " ++ v)
        ('\n' :: dumpInit (kv2 :: rest2)) [] (h2 :: t2) hw hcons
      have hd : dumpInit ((k, v) :: kv2 :: rest2) =
          (k ++ str ": " ++ v) ++ ('\n' :: dumpInit (kv2 :: rest2)) := by
        show k ++ str ": " ++ v ++ ['\n'] ++ dumpInit (kv2 :: rest2) = _
        simp [List.append_assoc]
      rw [hd, hfull]
      rw [hht] at hrest
      simp [hrest]

/-- Parsing one canonical header line. -/
theorem yamlLoadLine_canonical (k v : Str) (hk : wfKey k) :
    yamlLoadLine (k ++ str ": " ++ v) = some (k, v) := by
  unfold yamlLoadLine
  have hw : ∀ c ∈ k, c ≠ ':' := fun c hc => (wfKeyChar_facts c (hk.2 c hc)).2.1
  rw [show (str ": ") = ':' :: [' '] from rfl]
  rw [List.append_assoc]
  rw [splitFirst_append_left ':' [' '] k ((':' :: [' ']) ++ v) hw]
  rw [splitFirst_self ':' [' '] v]
  simp

/-- Loading all canonical lines yields the mapping back. -/
theorem mapM_canonical_lines (m : List (Str × Str)) (hm : ∀ kv ∈ m, wfKey kv.1) :
    (m.map (fun kv => kv.1 ++ str ": " ++ kv.2)).mapM yamlLoadLine = some m := by
  induction m with
  | nil => rfl
  | cons kv rest ih =>
    obtain ⟨k, v⟩ := kv
    simp only [List.map_cons, List.mapM_cons]
    rw [yamlLoadLine_canonical k v (hm (k, v) (by simp))]
    rw [ih (fun kv hkv => hm kv (by simp [hkv]))]
    rfl

/-- `yamlLoad` inverts `yamlDump` on the canonical fragment (via the group
`dumpInit m` that the regex extracts). -/
theorem yamlLoad_dumpInit (m : List (Str × Str))
    (hm : ∀ kv ∈ m, wfKey kv.1 ∧ wfVal kv.2) (hne : m ≠ []) :
    yamlLoad (dumpInit m) = some m := by
  have hdne : dumpInit m ≠ [] := by
    cases m with
    | nil => exact absurd rfl hne
    | cons kv rest =>
      obtain ⟨k, v⟩ := kv
      obtain ⟨hk, hv⟩ := hm (k, v) (by simp)
      obtain ⟨c, k', rfl⟩ := List.exists_cons_of_ne_nil hk.1
      cases rest <;> simp [dumpInit]
  unfold yamlLoad
  rw [if_neg hdne]
  rw [pySplit_dumpInit m hm hne]
  exact mapM_canonical_lines m (fun kv hkv => (hm kv hkv).1)

/-- A body whose head is not whitespace is untouched by the trailing
whitespace consumption of the `_FM` match. -/
theorem dropWhile_headNonWs (b : Str) (hb : headNonWs b = true) :
    b.dropWhile pyIsSpace = b := by
  cases b with
  | nil => rfl
  | cons c rest =>
    have hcF : pyIsSpace c = false := by simpa [headNonWs] using hb
    simp [List.dropWhile_cons, hcF]

/-- The `_FM` regex on a canonical note file matches exactly the header,
with group 1 the dump minus its final newline and the remainder the body. -/
theorem fmMatch_canonical (m : List (Str × Str)) (b : Str)
    (hm : ∀ kv ∈ m, wfKey kv.1 ∧ wfVal kv.2) (hne : m ≠ [])
    (hb : headNonWs b = true) :
    fmMatch (str "---" ++ ['\n'] ++ yamlDump m ++ str "---" ++ ['\n'] ++ b) =
      some (dumpInit m, b) := by
  obtain ⟨kv, rest, rfl⟩ := List.exists_cons_of_ne_nil hne
  obtain ⟨k, v⟩ := kv
  obtain ⟨hk, hv⟩ := hm (k, v) (by simp)
  obtain ⟨kc, k', rfl⟩ := List.exists_cons_of_ne_nil hk.1
  have hkc : pyIsSpace kc = false := (wfKeyChar_facts kc (hk.2 kc (by simp))).2.2.2
  have hx : (str "---" ++ ['\n'] ++ yamlDump ((kc :: k', v) :: rest) ++ str "---" ++
      ['\n'] ++ b) =
      '-' :: '-' :: '-' :: '\n' ::
        (yamlDump ((kc :: k', v) :: rest) ++ str "---" ++ ['\n'] ++ b) := rfl
  have hR : (yamlDump ((kc :: k', v) :: rest) ++ str "---" ++ ['\n'] ++ b) =
      kc :: ((k' ++ str ": " ++ v ++ ['\n'] ++ yamlDump rest) ++ str "---" ++
        ['\n'] ++ b) := by
    show ((kc :: k') ++ str ": " ++ v ++ ['\n'] ++ yamlDump rest) ++ str "---" ++
        ['\n'] ++ b = _
    simp [List.append_assoc]
  unfold fmMatch
  rw [hx]
  have hdw : List.dropWhile pyIsSpace
      ('-' :: '-' :: '-' :: '\n' ::
        (yamlDump ((kc :: k', v) :: rest) ++ str "---" ++ ['\n'] ++ b)) =
      '-' :: '-' :: '-' :: '\n' ::
        (yamlDump ((kc :: k', v) :: rest) ++ str "---" ++ ['\n'] ++ b) := by
    simp only [List.dropWhile_cons, show pyIsSpace '-' = false from rfl,
      Bool.false_eq_true, if_false]
  rw [hdw]
  have hsw : pyStartsWith (str "---")
      ('-' :: '-' :: '-' :: '\n' ::
        (yamlDump ((kc :: k', v) :: rest) ++ str "---" ++ ['\n'] ++ b)) = true := by
    simp [pyStartsWith, str]
  rw [if_pos hsw]
  have hdrop : List.drop 3
      ('-' :: '-' :: '-' :: '\n' ::
        (yamlDump ((kc :: k', v) :: rest) ++ str "---" ++ ['\n'] ++ b)) =
      '\n' :: (yamlDump ((kc :: k', v) :: rest) ++ str "---" ++ ['\n'] ++ b) := rfl
  rw [hdrop]
  have htw : List.takeWhile pyIsSpace
      ('\n' :: (yamlDump ((kc :: k', v) :: rest) ++ str "---" ++ ['\n'] ++ b)) =
      ['\n'] := by
    rw [List.takeWhile_cons]
    simp only [show pyIsSpace '\n' = true from rfl, if_true]
    rw [hR, List.takeWhile_cons]
    simp [hkc]
  rw [htw]
  rw [show lastNlIdx ['\n'] = some 0 from rfl]
  have hdrop1 : List.drop (0 + 1)
      ('\n' :: (yamlDump ((kc :: k', v) :: rest) ++ str "---" ++ ['\n'] ++ b)) =
      yamlDump ((kc :: k', v) :: rest) ++ str "---" ++ ['\n'] ++ b := rfl
  have hsd := splitFirst_dump ((kc :: k', v) :: rest) b hm (by simp)
  have hdw2 : List.dropWhile pyIsSpace ('\n' :: b) = b := by
    rw [List.dropWhile_cons]
    simp only [show pyIsSpace '\n' = true from rfl, if_true]
    exact dropWhile_headNonWs b hb
  simp only [hdrop1, hsd, hdw2]

/-- Claim C9 as amended: `encode(decode(x)) == x` holds for canonical
well-formed note files whose header already contains an `id` key: for a
header mapping `m` of the canonical fragment with an `id` entry and a body
`b` not beginning with whitespace, decoding `fmEncode m ++ b` yields exactly
`(m, b)` and re-encoding the note reproduces the input text.  Without an
`id` key the round trip fails, because `encode_file` appends `id: <note id>`
(the counterexample above). -/
theorem c9_canonical_roundtrip (m : List (Str × Str)) (b nid : Str)
    (hm : wfMeta m) (hid : str "id" ∈ m.map Prod.fst) (hb : headNonWs b = true) :
    decode_file (fmEncode m ++ b) = some (m, b) ∧
    encode_file { id := nid, meta := m, body := { raw := b } } = fmEncode m ++ b := by
  obtain ⟨hne, hnodup, hkv⟩ := hm
  constructor
  · unfold decode_file fmDecode
    have henc : fmEncode m ++ b =
        str "---" ++ ['\n'] ++ yamlDump m ++ str "---" ++ ['\n'] ++ b := by
      unfold fmEncode
      rw [if_neg hne]
    rw [henc]
    simp only [fmMatch_canonical m b hkv hne hb, yamlLoad_dumpInit m hkv hne,
      Option.map_some']
  · unfold encode_file
    rw [if_pos hid]

/-- Claim C9 witness: the amended statement applied to the mapping
`{title: hello world, id: n 1}` and the body `"z\n"`. -/
theorem c9_canonical_roundtrip_witness :
    wfMeta [(str "title", str "hello world"), (str "id", str "n 1")] ∧
    decode_file (fmEncode [(str "title", str "hello world"), (str "id", str "n 1")] ++
        str "z\n") =
      some ([(str "title", str "hello world"), (str "id", str "n 1")], str "z\n") ∧
    encode_file
        { id := str "n9", meta := [(str "title", str "hello world"), (str "id", str "n 1")],
          body := { raw := str "z\n" } } =
      fmEncode [(str "title", str "hello world"), (str "id", str "n 1")] ++ str "z\n" :=
  ⟨by decide,
   (c9_canonical_roundtrip [(str "title", str "hello world"), (str "id", str "n 1")]
     (str "z\n") (str "n9") (by decide) (by decide) (by decide)).1,
   (c9_canonical_roundtrip [(str "title", str "hello world"), (str "id", str "n 1")]
     (str "z\n") (str "n9") (by decide) (by decide) (by decide)).2⟩

/-! ### The link scan never skips an uncovered transclusion interior
(claim C10)

The lemmas below relate the two non-overlapping scans: wherever the
transclusion scan matched `![[...]]` at position `s`, the link scan matches
`[[...]]` at `s + 1` with the same inner group and the same end — unless an
earlier-starting link match already covers position `s + 1` (the
counterexample above). -/

/-- Fuel irrelevance for the link scan: any fuel at least the string length
computes the same list. -/
theorem scanLF_fuel (f1 : Nat) : ∀ f2 w pos st, w.length ≤ f1 → w.length ≤ f2 →
    scanLF f1 w pos st = scanLF f2 w pos st := by
  induction f1 with
  | zero =>
    intro f2 w pos st h1 _
    rw [List.length_eq_zero.mp (Nat.le_zero.mp h1)]
    cases f2 <;> rfl
  | succ f ih =>
    intro f2 w pos st h1 h2
    cases w with
    | nil => cases f2 <;> rfl
    | cons c rest =>
      cases f2 with
      | zero => exact absurd h2 (by simp)
      | succ g =>
        have hr : rest.length ≤ f := by simpa using h1
        have hg : rest.length ≤ g := by simpa using h2
        have hrt : rest.tail.length ≤ rest.length := by
          cases rest <;> simp
        cases st with
        | none =>
          simp only [scanLF]
          by_cases hc : c = '[' ∧ rest.head? = some '['
          · rw [if_pos hc, if_pos hc, ih g rest.tail (pos + 2) (some (pos, []))
              (le_trans hrt hr) (le_trans hrt hg)]
          · rw [if_neg hc, if_neg hc, ih g rest (pos + 1) none hr hg]
        | some pa =>
          obtain ⟨p, acc⟩ := pa
          simp only [scanLF]
          by_cases hc : c = ']' ∧ rest.head? = some ']'
          · rw [if_pos hc, if_pos hc, ih g rest.tail (pos + 2) none
              (le_trans hrt hr) (le_trans hrt hg)]
          · rw [if_neg hc, if_neg hc, ih g rest (pos + 1) (some (p, c :: acc)) hr hg]

/-- Fuel irrelevance for the transclusion scan. -/
theorem scanTF_fuel (f1 : Nat) : ∀ f2 w pos st, w.length ≤ f1 → w.length ≤ f2 →
    scanTF f1 w pos st = scanTF f2 w pos st := by
  induction f1 with
  | zero =>
    intro f2 w pos st h1 _
    rw [List.length_eq_zero.mp (Nat.le_zero.mp h1)]
    cases f2 <;> rfl
  | succ f ih =>
    intro f2 w pos st h1 h2
    cases w with
    | nil => cases f2 <;> rfl
    | cons c rest =>
      cases f2 with
      | zero => exact absurd h2 (by simp)
      | succ g =>
        have hr : rest.length ≤ f := by simpa using h1
        have hg : rest.length ≤ g := by simpa using h2
        have hrt : rest.tail.length ≤ rest.length := by
          cases rest <;> simp
        have hrtt : rest.tail.tail.length ≤ rest.length :=
          le_trans (by cases rest.tail <;> simp) hrt
        cases st with
        | none =>
          simp only [scanTF]
          by_cases hc : c = '!' ∧ rest.head? = some '[' ∧ rest.tail.head? = some '['
          · rw [if_pos hc, if_pos hc, ih g rest.tail.tail (pos + 3) (some (pos, []))
              (le_trans hrtt hr) (le_trans hrtt hg)]
          · rw [if_neg hc, if_neg hc, ih g rest (pos + 1) none hr hg]
        | some pa =>
          obtain ⟨p, acc⟩ := pa
          simp only [scanTF]
          by_cases hc : c = ']' ∧ rest.head? = some ']'
          · rw [if_pos hc, if_pos hc, ih g rest.tail (pos + 2) none
              (le_trans hrt hr) (le_trans hrt hg)]
          · rw [if_neg hc, if_neg hc, ih g rest (pos + 1) (some (p, c :: acc)) hr hg]

/-- The link scan with its canonical (exact) fuel. -/
def scanL (w : Str) (pos : Nat) (st : Option (Nat × Str)) : List MRes :=
  scanLF w.length w pos st

/-- The transclusion scan with its canonical fuel. -/
def scanT (w : Str) (pos : Nat) (st : Option (Nat × Str)) : List MRes :=
  scanTF w.length w pos st

/-- One step of the link scan outside a match. -/
theorem scanL_cons_out (c : Char) (rest : Str) (pos : Nat) :
    scanL (c :: rest) pos none =
      if c = '[' ∧ rest.head? = some '[' then scanL rest.tail (pos + 2) (some (pos, []))
      else scanL rest (pos + 1) none := by
  unfold scanL
  have hrt : rest.tail.length ≤ rest.length := by cases rest <;> simp
  show scanLF (rest.length + 1) (c :: rest) pos none = _
  simp only [scanLF]
  by_cases hc : c = '[' ∧ rest.head? = some '['
  · rw [if_pos hc, if_pos hc,
      scanLF_fuel rest.length rest.tail.length rest.tail (pos + 2) (some (pos, [])) hrt le_rfl]
  · rw [if_neg hc, if_neg hc]

/-- One step of the link scan inside a match. -/
theorem scanL_cons_ins (c : Char) (rest : Str) (pos p : Nat) (acc : Str) :
    scanL (c :: rest) pos (some (p, acc)) =
      if c = ']' ∧ rest.head? = some ']' then
        ⟨acc.reverse, p, pos + 2⟩ :: scanL rest.tail (pos + 2) none
      else scanL rest (pos + 1) (some (p, c :: acc)) := by
  unfold scanL
  have hrt : rest.tail.length ≤ rest.length := by cases rest <;> simp
  show scanLF (rest.length + 1) (c :: rest) pos (some (p, acc)) = _
  simp only [scanLF]
  by_cases hc : c = ']' ∧ rest.head? = some ']'
  · rw [if_pos hc, if_pos hc,
      scanLF_fuel rest.length rest.tail.length rest.tail (pos + 2) none hrt le_rfl]
  · rw [if_neg hc, if_neg hc]

/-- One step of the transclusion scan outside a match. -/
theorem scanT_cons_out (c : Char) (rest : Str) (pos : Nat) :
    scanT (c :: rest) pos none =
      if c = '!' ∧ rest.head? = some '[' ∧ rest.tail.head? = some '[' then
        scanT rest.tail.tail (pos + 3) (some (pos, []))
      else scanT rest (pos + 1) none := by
  unfold scanT
  have hrt : rest.tail.length ≤ rest.length := by cases rest <;> simp
  have hrtt : rest.tail.tail.length ≤ rest.length :=
    le_trans (by cases rest.tail <;> simp) hrt
  show scanTF (rest.length + 1) (c :: rest) pos none = _
  simp only [scanTF]
  by_cases hc : c = '!' ∧ rest.head? = some '[' ∧ rest.tail.head? = some '['
  · rw [if_pos hc, if_pos hc,
      scanTF_fuel rest.length rest.tail.tail.length rest.tail.tail (pos + 3)
        (some (pos, [])) hrtt le_rfl]
  · rw [if_neg hc, if_neg hc]

/-- One step of the transclusion scan inside a match. -/
theorem scanT_cons_ins (c : Char) (rest : Str) (pos p : Nat) (acc : Str) :
    scanT (c :: rest) pos (some (p, acc)) =
      if c = ']' ∧ rest.head? = some ']' then
        ⟨acc.reverse, p, pos + 2⟩ :: scanT rest.tail (pos + 2) none
      else scanT rest (pos + 1) (some (p, c :: acc)) := by
  unfold scanT
  have hrt : rest.tail.length ≤ rest.length := by cases rest <;> simp
  show scanTF (rest.length + 1) (c :: rest) pos (some (p, acc)) = _
  simp only [scanTF]
  by_cases hc : c = ']' ∧ rest.head? = some ']'
  · rw [if_pos hc, if_pos hc,
      scanTF_fuel rest.length rest.tail.length rest.tail (pos + 2) none hrt le_rfl]
  · rw [if_neg hc, if_neg hc]

/-- The closing condition of the scans matches the `"]]"` pattern test. -/
theorem close_cond_iff (c : Char) (rest : Str) :
    pyStartsWith [']', ']'] (c :: rest) = true ↔ (c = ']' ∧ rest.head? = some ']') := by
  cases rest with
  | nil => simp [pyStartsWith]
  | cons d r2 =>
    show ((']' == c) && ((']' == d) && true)) = true ↔ _
    simp only [Bool.and_true, Bool.and_eq_true, beq_iff_eq, List.head?_cons,
      Option.some.injEq]
    constructor
    · rintro ⟨rfl, rfl⟩
      exact ⟨rfl, rfl⟩
    · rintro ⟨rfl, rfl⟩
      exact ⟨rfl, rfl⟩

/-- `splitFirst` failure on a string fails on its tail. -/
theorem splitFirst_none_tail (pat : Str) (c : Char) (rest : Str)
    (h : splitFirst pat (c :: rest) = none) : splitFirst pat rest = none := by
  by_cases hf : pyStartsWith pat (c :: rest) = true
  · simp [splitFirst, hf] at h
  · simp only [splitFirst, hf, Bool.false_eq_true, if_false, Option.map_eq_none'] at h
    exact h

/-- `splitFirst` failure passes to `List.tail`. -/
theorem splitFirst_none_tail2 (pat s : Str) (h : splitFirst pat s = none) :
    splitFirst pat s.tail = none := by
  cases s with
  | nil => rfl
  | cons c rest => exact splitFirst_none_tail pat c rest h

/-- Peeling one carried character off a successful `splitFirst`. -/
theorem splitFirst_cons_some (pat : Str) (c : Char) (rest i b : Str)
    (h : splitFirst pat (c :: rest) = some (c :: i, b)) :
    splitFirst pat rest = some (i, b) := by
  by_cases hf : pyStartsWith pat (c :: rest) = true
  · simp only [splitFirst, hf, if_true, Option.some.injEq, Prod.mk.injEq] at h
    exact absurd h.1.symm (by simp)
  · simp only [splitFirst, hf, Bool.false_eq_true, if_false, Option.map_eq_some'] at h
    obtain ⟨⟨i1, b1⟩, h1, h2⟩ := h
    simp only [Prod.mk.injEq, List.cons.injEq] at h2
    obtain ⟨⟨-, rfl⟩, rfl⟩ := h2
    exact h1

/-- `pyStartsWith` only inspects a long enough prefix. -/
theorem startsWith_prefix_only (pat : Str) : ∀ u v : Str, pat.length ≤ u.length →
    pyStartsWith pat (u ++ v) = pyStartsWith pat u := by
  induction pat with
  | nil => intro u v _; rfl
  | cons p ps ih =>
    intro u v hu
    cases u with
    | nil => simp at hu
    | cons c cs =>
      simp only [List.cons_append, pyStartsWith, List.append_eq]
      rw [ih cs v (by simpa using hu)]

/-- Stability of a first occurrence: the text before the occurrence still
precedes a match when everything after is replaced. -/
theorem splitFirst_stable (pat : Str) (hp : pat ≠ []) :
    ∀ s i a, splitFirst pat s = some (i, a) →
      ∀ b, splitFirst pat (i ++ pat ++ b) = some (i, b) := by
  intro s
  induction s with
  | nil => intro i a h b; simp [splitFirst] at h
  | cons c rest ih =>
    intro i a h b
    obtain ⟨p0, ps, rfl⟩ := List.exists_cons_of_ne_nil hp
    by_cases hf : pyStartsWith (p0 :: ps) (c :: rest) = true
    · simp only [splitFirst, hf, if_true, Option.some.injEq, Prod.mk.injEq] at h
      obtain ⟨rfl, -⟩ := h
      simpa using splitFirst_self p0 ps b
    · simp only [splitFirst, hf, Bool.false_eq_true, if_false, Option.map_eq_some'] at h
      obtain ⟨⟨i1, a1⟩, h1, h2⟩ := h
      simp only [Prod.mk.injEq] at h2
      obtain ⟨rfl, rfl⟩ := h2
      have hdec := splitFirst_decomp (p0 :: ps) rest i1 a1 h1
      have hnf : pyStartsWith (p0 :: ps) (c :: (i1 ++ (p0 :: ps) ++ b)) = false := by
        have len1 : (p0 :: ps).length ≤ (c :: (i1 ++ (p0 :: ps))).length := by
          simp
          omega
        have e1 : (c :: (i1 ++ (p0 :: ps) ++ b)) = (c :: (i1 ++ (p0 :: ps))) ++ b := by
          simp
        have e2 : (c :: rest) = (c :: (i1 ++ (p0 :: ps))) ++ a1 := by
          simp [hdec]
        have hv := startsWith_prefix_only (p0 :: ps) (c :: (i1 ++ (p0 :: ps))) b len1
        rw [e1, hv]
        have hv2 := startsWith_prefix_only (p0 :: ps) (c :: (i1 ++ (p0 :: ps))) a1 len1
        rw [e2, hv2] at hf
        simpa using hf
      have hrec := ih i1 a1 h1 b
      show splitFirst (p0 :: ps) (c :: (i1 ++ (p0 :: ps) ++ b)) = _
      simp only [splitFirst, hnf, Bool.false_eq_true, if_false, hrec]
      rfl

/-- The link scan inside a match runs to the first `"]]"` and emits. -/
theorem scanL_ins_run : ∀ (w : Str) (pos p : Nat) (acc : Str),
    scanL w pos (some (p, acc)) =
      match splitFirst [']', ']'] w with
      | some (i, a) =>
        ⟨acc.reverse ++ i, p, pos + i.length + 2⟩ :: scanL a (pos + i.length + 2) none
      | none => [] := by
  intro w
  induction w with
  | nil => intro pos p acc; rfl
  | cons c rest ih =>
    intro pos p acc
    rw [scanL_cons_ins]
    by_cases hc : c = ']' ∧ rest.head? = some ']'
    · rw [if_pos hc]
      obtain ⟨rfl, hh⟩ := hc
      cases rest with
      | nil => simp at hh
      | cons d r2 =>
        have hd : d = ']' := by simpa using hh
        subst hd
        have hsf : splitFirst [']', ']'] (']' :: ']' :: r2) = some ([], r2) :=
          splitFirst_self ']' [']'] r2
        rw [hsf]
        simp
    · rw [if_neg hc]
      rw [ih (pos + 1) p (c :: acc)]
      have hnf : pyStartsWith [']', ']'] (c :: rest) = false := by
        rw [← Bool.not_eq_true]
        intro hcon
        exact hc ((close_cond_iff c rest).mp hcon)
      cases hsp : splitFirst [']', ']'] rest with
      | none =>
        have hcr : splitFirst [']', ']'] (c :: rest) = none := by
          simp [splitFirst, hnf, hsp]
        rw [hcr]
      | some ia =>
        obtain ⟨i, a⟩ := ia
        have hcr : splitFirst [']', ']'] (c :: rest) = some (c :: i, a) := by
          simp [splitFirst, hnf, hsp]
        rw [hcr]
        simp only [List.reverse_cons, List.append_assoc, List.singleton_append,
          List.length_cons]
        ring_nf

/-- The transclusion scan inside a match runs to the first `"]]"` and
emits. -/
theorem scanT_ins_run : ∀ (w : Str) (pos p : Nat) (acc : Str),
    scanT w pos (some (p, acc)) =
      match splitFirst [']', ']'] w with
      | some (i, a) =>
        ⟨acc.reverse ++ i, p, pos + i.length + 2⟩ :: scanT a (pos + i.length + 2) none
      | none => [] := by
  intro w
  induction w with
  | nil => intro pos p acc; rfl
  | cons c rest ih =>
    intro pos p acc
    rw [scanT_cons_ins]
    by_cases hc : c = ']' ∧ rest.head? = some ']'
    · rw [if_pos hc]
      obtain ⟨rfl, hh⟩ := hc
      cases rest with
      | nil => simp at hh
      | cons d r2 =>
        have hd : d = ']' := by simpa using hh
        subst hd
        have hsf : splitFirst [']', ']'] (']' :: ']' :: r2) = some ([], r2) :=
          splitFirst_self ']' [']'] r2
        rw [hsf]
        simp
    · rw [if_neg hc]
      rw [ih (pos + 1) p (c :: acc)]
      have hnf : pyStartsWith [']', ']'] (c :: rest) = false := by
        rw [← Bool.not_eq_true]
        intro hcon
        exact hc ((close_cond_iff c rest).mp hcon)
      cases hsp : splitFirst [']', ']'] rest with
      | none =>
        have hcr : splitFirst [']', ']'] (c :: rest) = none := by
          simp [splitFirst, hnf, hsp]
        rw [hcr]
      | some ia =>
        obtain ⟨i, a⟩ := ia
        have hcr : splitFirst [']', ']'] (c :: rest) = some (c :: i, a) := by
          simp [splitFirst, hnf, hsp]
        rw [hcr]
        simp only [List.reverse_cons, List.append_assoc, List.singleton_append,
          List.length_cons]
        ring_nf

/-- Opening step of the link scan on a literal `[[`. -/
theorem scanL_open (r : Str) (pos : Nat) :
    scanL ('[' :: '[' :: r) pos none =
      match splitFirst [']', ']'] r with
      | some (i, a) =>
        ⟨i, pos, pos + i.length + 4⟩ :: scanL a (pos + i.length + 4) none
      | none => [] := by
  rw [scanL_cons_out]
  rw [if_pos ⟨rfl, rfl⟩]
  show scanL r (pos + 2) (some (pos, [])) = _
  rw [scanL_ins_run r (pos + 2) pos []]
  cases hsp : splitFirst [']', ']'] r with
  | none => rfl
  | some ia =>
    obtain ⟨i, a⟩ := ia
    show (⟨[].reverse ++ i, pos, pos + 2 + i.length + 2⟩ : MRes) ::
        scanL a (pos + 2 + i.length + 2) none =
      (⟨i, pos, pos + i.length + 4⟩ : MRes) :: scanL a (pos + i.length + 4) none
    have harith : pos + 2 + i.length + 2 = pos + i.length + 4 := by omega
    rw [harith]
    simp

/-- Opening step of the transclusion scan on a literal `![[`. -/
theorem scanT_open (r : Str) (pos : Nat) :
    scanT ('!' :: '[' :: '[' :: r) pos none =
      match splitFirst [']', ']'] r with
      | some (i, a) =>
        ⟨i, pos, pos + i.length + 5⟩ :: scanT a (pos + i.length + 5) none
      | none => [] := by
  rw [scanT_cons_out]
  rw [if_pos ⟨rfl, rfl, rfl⟩]
  show scanT r (pos + 3) (some (pos, [])) = _
  rw [scanT_ins_run r (pos + 3) pos []]
  cases hsp : splitFirst [']', ']'] r with
  | none => rfl
  | some ia =>
    obtain ⟨i, a⟩ := ia
    show (⟨[].reverse ++ i, pos, pos + 3 + i.length + 2⟩ : MRes) ::
        scanT a (pos + 3 + i.length + 2) none =
      (⟨i, pos, pos + i.length + 5⟩ : MRes) :: scanT a (pos + i.length + 5) none
    have harith : pos + 3 + i.length + 2 = pos + i.length + 5 := by omega
    rw [harith]
    simp

/-- Skipping step of the link scan. -/
theorem scanL_skip (c : Char) (rest : Str) (pos : Nat)
    (h : ¬ (c = '[' ∧ rest.head? = some '[')) :
    scanL (c :: rest) pos none = scanL rest (pos + 1) none := by
  rw [scanL_cons_out, if_neg h]

/-- Skipping step of the transclusion scan. -/
theorem scanT_skip (c : Char) (rest : Str) (pos : Nat)
    (h : ¬ (c = '!' ∧ rest.head? = some '[' ∧ rest.tail.head? = some '[')) :
    scanT (c :: rest) pos none = scanT rest (pos + 1) none := by
  rw [scanT_cons_out, if_neg h]

/-- A region with no `"]]"` yields no transclusion match. -/
theorem scanT_none_emits (n : Nat) : ∀ w pos, w.length ≤ n →
    splitFirst [']', ']'] w = none → scanT w pos none = [] := by
  induction n with
  | zero =>
    intro w pos h1 _
    rw [List.length_eq_zero.mp (Nat.le_zero.mp h1)]
    rfl
  | succ n ih =>
    intro w pos h1 hnone
    cases w with
    | nil => rfl
    | cons c rest =>
      have hrest : splitFirst [']', ']'] rest = none := splitFirst_none_tail _ c rest hnone
      rw [scanT_cons_out]
      by_cases hc : c = '!' ∧ rest.head? = some '[' ∧ rest.tail.head? = some '['
      · rw [if_pos hc]
        rw [scanT_ins_run]
        have h3 : splitFirst [']', ']'] rest.tail.tail = none :=
          splitFirst_none_tail2 _ _ (splitFirst_none_tail2 _ _ hrest)
        rw [h3]
      · rw [if_neg hc]
        exact ih rest (pos + 1) (by simpa using h1) hrest

/-- Every transclusion match starts at or after the scan position and spans
at least the five characters of `![[]]`. -/
theorem scanT_bounds (n : Nat) : ∀ w pos, w.length ≤ n →
    ∀ t ∈ scanT w pos none, pos ≤ t.mstart ∧ t.mstart + 5 ≤ t.mend := by
  induction n with
  | zero =>
    intro w pos h1 t ht
    rw [List.length_eq_zero.mp (Nat.le_zero.mp h1)] at ht
    simp [scanT, scanTF] at ht
  | succ n ih =>
    intro w pos h1 t ht
    cases w with
    | nil => simp [scanT, scanTF] at ht
    | cons c rest =>
      rw [scanT_cons_out] at ht
      by_cases hc : c = '!' ∧ rest.head? = some '[' ∧ rest.tail.head? = some '['
      · rw [if_pos hc, scanT_ins_run] at ht
        cases hsp : splitFirst [']', ']'] rest.tail.tail with
        | none => rw [hsp] at ht; simp at ht
        | some ia =>
          obtain ⟨i, a⟩ := ia
          rw [hsp] at ht
          have hlen : a.length ≤ n := by
            have hd := splitFirst_decomp [']', ']'] rest.tail.tail i a hsp
            have h2 : rest.tail.tail.length ≤ rest.length := by
              cases rest with
              | nil => simp
              | cons d r2 => cases r2 <;> simp <;> omega
            have h3 : a.length ≤ rest.tail.tail.length := by
              rw [hd]
              simp
              omega
            have h4 : rest.length ≤ n := by simpa using h1
            omega
          rcases List.mem_cons.mp ht with rfl | htail
          · constructor
            · show pos ≤ pos
              exact le_rfl
            · show pos + 5 ≤ pos + 3 + i.length + 2
              omega
          · have := ih a (pos + 3 + i.length + 2) hlen t htail
            constructor
            · omega
            · exact this.2
      · rw [if_neg hc] at ht
        have := ih rest (pos + 1) (by simpa using h1) t ht
        exact ⟨by omega, this.2⟩

/-- Transclusion matches inside a consumed link region either lie past the
region (and belong to the continuation scan) or end exactly at the region
end. -/
theorem scanT_region (n : Nat) : ∀ i a pos, i.length ≤ n →
    (∀ b, splitFirst [']', ']'] (i ++ (']' :: ']' :: b)) = some (i, b)) →
    ∀ t ∈ scanT (i ++ (']' :: ']' :: a)) pos none,
      t ∈ scanT a (pos + i.length + 2) none ∨
        (t.mend = pos + i.length + 2 ∧ pos ≤ t.mstart) := by
  induction n with
  | zero =>
    intro i a pos h1 _ t ht
    rw [List.length_eq_zero.mp (Nat.le_zero.mp h1)] at ht ⊢
    rw [List.nil_append] at ht
    rw [scanT_skip ']' (']' :: a) pos (by simp)] at ht
    rw [scanT_skip ']' a (pos + 1) (by rintro ⟨h, -⟩; cases h)] at ht
    left
    show t ∈ scanT a (pos + 0 + 2) none
    have harith : pos + 0 + 2 = pos + 1 + 1 := by omega
    rw [harith]
    exact ht
  | succ n ih =>
    intro i a pos h1 hclean t ht
    cases i with
    | nil =>
      rw [List.nil_append] at ht
      rw [scanT_skip ']' (']' :: a) pos (by simp)] at ht
      rw [scanT_skip ']' a (pos + 1) (by rintro ⟨h, -⟩; cases h)] at ht
      left
      show t ∈ scanT a (pos + 0 + 2) none
      have harith : pos + 0 + 2 = pos + 1 + 1 := by omega
      rw [harith]
      exact ht
    | cons c i2 =>
      rw [List.cons_append] at ht
      by_cases hsh : c = '!' ∧ (i2 ++ (']' :: ']' :: a)).head? = some '[' ∧
          (i2 ++ (']' :: ']' :: a)).tail.head? = some '['
      · obtain ⟨rfl, hh1, hh2⟩ := hsh
        cases i2 with
        | nil => simp at hh1
        | cons d i3 =>
          have hd : d = '[' := by simpa using hh1
          subst hd
          cases i3 with
          | nil => simp at hh2
          | cons e i4 =>
            have he : e = '[' := by simpa using hh2
            subst he
            have hclean4 : splitFirst [']', ']'] (i4 ++ (']' :: ']' :: a)) =
                some (i4, a) := by
              have h0 := hclean a
              rw [List.cons_append, List.cons_append, List.cons_append] at h0
              exact splitFirst_cons_some _ '[' _ _ _
                (splitFirst_cons_some _ '[' _ _ _
                  (splitFirst_cons_some _ '!' _ _ _ h0))
            rw [show ('!' :: (('[' :: '[' :: i4) ++ (']' :: ']' :: a))) =
                '!' :: '[' :: '[' :: (i4 ++ (']' :: ']' :: a)) by simp] at ht
            rw [scanT_open, hclean4] at ht
            rcases List.mem_cons.mp ht with rfl | htail
            · right
              constructor
              · show pos + i4.length + 5 = pos + ('!' :: '[' :: '[' :: i4).length + 2
                simp
                omega
              · show pos ≤ pos
                exact le_rfl
            · left
              have harith : pos + i4.length + 5 =
                  pos + ('!' :: '[' :: '[' :: i4).length + 2 := by
                simp
                omega
              rw [harith] at htail
              exact htail
      · rw [scanT_skip c (i2 ++ (']' :: ']' :: a)) pos hsh] at ht
        have hclean2 : ∀ b, splitFirst [']', ']'] (i2 ++ (']' :: ']' :: b)) =
            some (i2, b) := by
          intro b
          have h0 := hclean b
          rw [List.cons_append] at h0
          exact splitFirst_cons_some _ c _ _ _ h0
        have := ih i2 a (pos + 1) (by simpa using h1) hclean2 t ht
        rcases this with hin | ⟨hend, hstart⟩
        · left
          have harith : pos + 1 + i2.length + 2 = pos + (c :: i2).length + 2 := by
            simp
            omega
          rw [harith] at hin
          exact hin
        · right
          constructor
          · rw [hend]
            simp
            omega
          · omega

/-- Correspondence of the two scans: a transclusion match whose interior
start is not strictly inside any link match has a link match one character
to its right, with the same inner group and the same end. -/
theorem scan_corr (n : Nat) : ∀ u pos, u.length ≤ n → ∀ t ∈ scanT u pos none,
    (∀ l ∈ scanL u pos none, ¬ (l.mstart < t.mstart + 1 ∧ t.mstart + 1 < l.mend)) →
    ∃ l ∈ scanL u pos none,
      l.inner = t.inner ∧ l.mstart = t.mstart + 1 ∧ l.mend = t.mend := by
  induction n with
  | zero =>
    intro u pos h1 t ht _
    rw [List.length_eq_zero.mp (Nat.le_zero.mp h1)] at ht
    simp [scanT, scanTF] at ht
  | succ n ih =>
    intro u pos h1 t ht hcov
    cases u with
    | nil => simp [scanT, scanTF] at ht
    | cons c rest =>
      by_cases hT : c = '!' ∧ rest.head? = some '[' ∧ rest.tail.head? = some '['
      · obtain ⟨rfl, hh1, hh2⟩ := hT
        cases rest with
        | nil => simp at hh1
        | cons d rest2 =>
          have hd : d = '[' := by simpa using hh1
          subst hd
          cases rest2 with
          | nil => simp at hh2
          | cons e r =>
            have he : e = '[' := by simpa using hh2
            subst he
            rw [scanT_open] at ht
            have hLskip : scanL ('!' :: '[' :: '[' :: r) pos none =
                scanL ('[' :: '[' :: r) (pos + 1) none :=
              scanL_skip '!' _ pos (by rintro ⟨h, -⟩; cases h)
            cases hsp : splitFirst [']', ']'] r with
            | none => rw [hsp] at ht; simp at ht
            | some ia =>
              obtain ⟨i, a⟩ := ia
              rw [hsp] at ht
              have hLopen : scanL ('[' :: '[' :: r) (pos + 1) none =
                  (⟨i, pos + 1, pos + 1 + i.length + 4⟩ : MRes) ::
                    scanL a (pos + 1 + i.length + 4) none := by
                rw [scanL_open, hsp]
              have e1 : pos + 1 + i.length + 4 = pos + i.length + 5 := by omega
              rw [e1] at hLopen
              rcases List.mem_cons.mp ht with rfl | htail
              · refine ⟨⟨i, pos + 1, pos + i.length + 5⟩, ?_, rfl, rfl, rfl⟩
                rw [hLskip, hLopen]
                exact List.mem_cons_self _ _
              · have hlen : a.length ≤ n := by
                  have hdec := splitFirst_decomp [']', ']'] r i a hsp
                  have h2 : a.length ≤ r.length := by rw [hdec]; simp; omega
                  have h3 : r.length + 3 ≤ n + 1 := by simpa using h1
                  omega
                have hcov2 : ∀ l ∈ scanL a (pos + i.length + 5) none,
                    ¬ (l.mstart < t.mstart + 1 ∧ t.mstart + 1 < l.mend) := by
                  intro l hl
                  apply hcov l
                  rw [hLskip, hLopen]
                  exact List.mem_cons_of_mem _ hl
                obtain ⟨l, hl, hfields⟩ :=
                  ih a (pos + i.length + 5) hlen t htail hcov2
                refine ⟨l, ?_, hfields⟩
                rw [hLskip, hLopen]
                exact List.mem_cons_of_mem _ hl
      · by_cases hL : c = '[' ∧ rest.head? = some '['
        · obtain ⟨rfl, hh1⟩ := hL
          cases rest with
          | nil => simp at hh1
          | cons d r =>
            have hd : d = '[' := by simpa using hh1
            subst hd
            have hTs : scanT ('[' :: '[' :: r) pos none = scanT r (pos + 2) none := by
              rw [scanT_skip '[' _ pos (by rintro ⟨h, -⟩; cases h),
                scanT_skip '[' r (pos + 1) (by rintro ⟨h, -⟩; cases h)]
            rw [hTs] at ht
            cases hsp : splitFirst [']', ']'] r with
            | none =>
              rw [scanT_none_emits r.length r (pos + 2) le_rfl hsp] at ht
              simp at ht
            | some ia =>
              obtain ⟨i, a⟩ := ia
              have hdec := splitFirst_decomp [']', ']'] r i a hsp
              have hdec2 : r = i ++ (']' :: ']' :: a) := by
                rw [hdec]
                simp
              have hclean : ∀ b, splitFirst [']', ']'] (i ++ (']' :: ']' :: b)) =
                  some (i, b) := by
                intro b
                have := splitFirst_stable [']', ']'] (by simp) r i a hsp b
                rwa [List.append_assoc] at this
              have hLopen : scanL ('[' :: '[' :: r) pos none =
                  (⟨i, pos, pos + i.length + 4⟩ : MRes) ::
                    scanL a (pos + i.length + 4) none := by
                rw [scanL_open, hsp]
              have hreg := scanT_region i.length i a (pos + 2) le_rfl hclean t
                (by rw [← hdec2]; exact ht)
              have hbnd := scanT_bounds r.length r (pos + 2) le_rfl t ht
              rcases hreg with hin | ⟨hend, hstart⟩
              · have e2 : pos + 2 + i.length + 2 = pos + i.length + 4 := by omega
                rw [e2] at hin
                have hlen : a.length ≤ n := by
                  have h2 : a.length ≤ r.length := by rw [hdec]; simp; omega
                  have h3 : r.length + 2 ≤ n + 1 := by simpa using h1
                  omega
                have hcov2 : ∀ l ∈ scanL a (pos + i.length + 4) none,
                    ¬ (l.mstart < t.mstart + 1 ∧ t.mstart + 1 < l.mend) := by
                  intro l hl
                  apply hcov l
                  rw [hLopen]
                  exact List.mem_cons_of_mem _ hl
                obtain ⟨l, hl, hfields⟩ := ih a (pos + i.length + 4) hlen t hin hcov2
                refine ⟨l, ?_, hfields⟩
                rw [hLopen]
                exact List.mem_cons_of_mem _ hl
              · exfalso
                apply hcov ⟨i, pos, pos + i.length + 4⟩
                · rw [hLopen]
                  exact List.mem_cons_self _ _
                · constructor
                  · show pos < t.mstart + 1
                    omega
                  · show t.mstart + 1 < pos + i.length + 4
                    omega
        · have hts := scanT_skip c rest pos hT
          have hls := scanL_skip c rest pos hL
          rw [hts] at ht
          rw [hls] at hcov
          obtain ⟨l, hl, hfields⟩ := ih rest (pos + 1) (by simpa using h1) t ht hcov
          refine ⟨l, ?_, hfields⟩
          rw [hls]
          exact hl

/-- Claim C10 as amended: every transclusion `![[spec]]` whose interior is
not strictly inside another link match is also recorded in `body.links`,
with the same target, a range starting exactly one character after the
transclusion and the same end offset; when an earlier-starting link match
covers the transclusion interior (the counterexample above) the link is
absent. -/
theorem c10_uncovered_transclusion (text id : Str) (t : Transclusion)
    (ht : t ∈ (parse text id).transclusions) (s e : Nat) (hr : t.range = some ⟨s, e⟩)
    (hcov : ((parse text id).links.all (fun l =>
      match l.range with
      | some r => decide (¬ (r.start < s + 1 ∧ s + 1 < r.stop))
      | none => true)) = true) :
    ∃ l ∈ (parse text id).links, l.range = some ⟨s + 1, e⟩ ∧ l.target = t.target := by
  have htm : (parse text id).transclusions = (transMatches text).map
      (fun m => { target := parseTarget m.inner, range := some ⟨m.mstart, m.mend⟩ }) := rfl
  have hlm : (parse text id).links = (linkMatches text).map
      (fun m => { source := id, target := parseTarget m.inner,
                  range := some ⟨m.mstart, m.mend⟩ }) := rfl
  rw [htm] at ht
  obtain ⟨m, hm, rfl⟩ := List.mem_map.mp ht
  simp only [Option.some.injEq, Range.mk.injEq] at hr
  obtain ⟨hs, he⟩ := hr
  have hm2 : m ∈ scanT text 0 none := hm
  have hcov2 : ∀ l ∈ scanL text 0 none,
      ¬ (l.mstart < m.mstart + 1 ∧ m.mstart + 1 < l.mend) := by
    intro l hl
    have hmem : ({ source := id, target := parseTarget l.inner,
                   range := some ⟨l.mstart, l.mend⟩ } : Link) ∈ (parse text id).links := by
      rw [hlm]
      exact List.mem_map.mpr ⟨l, hl, rfl⟩
    have := List.all_eq_true.mp hcov _ hmem
    simp only [decide_eq_true_eq] at this
    rw [hs]
    exact this
  obtain ⟨l, hl, hinner, hstart, hend⟩ :=
    scan_corr text.length text 0 le_rfl m hm2 hcov2
  refine ⟨{ source := id, target := parseTarget l.inner,
            range := some ⟨l.mstart, l.mend⟩ }, ?_, ?_, ?_⟩
  · rw [hlm]
    exact List.mem_map.mpr ⟨l, hl, rfl⟩
  · rw [hstart, hend, hs, he]
  · show parseTarget l.inner = parseTarget m.inner
    rw [hinner]

/-- Claim C10 witness: the amended statement applied to the body
`![[spec]]`, whose transclusion interior is covered by no link match. -/
theorem c10_uncovered_transclusion_witness :
    (⟨{ id := str "spec" }, some ⟨0, 9⟩⟩ : Transclusion) ∈
      (parse (str "![[spec]]") (str "src")).transclusions ∧
    ∃ l ∈ (parse (str "![[spec]]") (str "src")).links,
      l.range = some ⟨0 + 1, 9⟩ ∧ l.target = (⟨{ id := str "spec" }, some ⟨0, 9⟩⟩ :
        Transclusion).target :=
  ⟨by decide,
   c10_uncovered_transclusion (str "![[spec]]") (str "src")
     ⟨{ id := str "spec" }, some ⟨0, 9⟩⟩ (by decide) 0 9 (by decide) (by decide)⟩

end Hypo

